import Mathlib

/-!
Verification development for the `lexerGrammarAnalyzer` repository.

The repository contains a DFA-based lexical scanner (`work1.py`) and an
LR(1) parser generator and driver (`work2.py`).  This file gives a shallow
embedding of both in Lean 4 and proves/refutes the frozen claims about them.

Conventions of the embedding:
* Python strings are modelled as `List Char` in the scanner (which works
  character by character) and as `String` in the parser (which works with
  whole symbols).
* Python's unbounded non-negative list indices are modelled with `Nat`;
  truncated subtraction only matters where the Python counterpart would go
  negative, and that situation is exactly what claim C9 is about (the proved
  invariant shows positions stay ≥ 1 there, so no truncation is exercised
  on reachable states).
* `while` loops are modelled by structural recursion on an explicit fuel
  argument; for the scanner the fuel is proved sufficient
  (`Work1.run_completes`), so the fueled model agrees with the Python loop.
* Python `dict`/`set` are modelled by association lists / duplicate-free
  lists built in insertion order; only membership matters to the algorithms.
* Character classification functions (`str.isalpha` …) are modelled on
  ASCII, which is the alphabet the specification commits to.
-/

namespace Work1

/-- Single-quote character (code point 39), used when building lexeme strings. -/
def sqChar : Char := Char.ofNat 39

/-- ASCII model of Python `str.isalpha` for single characters. -/
def isAlpha (c : Char) : Bool :=
  ('a' ≤ c && c ≤ 'z') || ('A' ≤ c && c ≤ 'Z')

/-- ASCII model of Python `str.isdigit` for single characters. -/
def isDigit (c : Char) : Bool :=
  '0' ≤ c && c ≤ '9'

/-- ASCII model of Python `str.isalnum` for single characters. -/
def isAlnum (c : Char) : Bool :=
  isAlpha c || isDigit c

/-- `work1.TokenType`. -/
inductive TokenType where
  | KEYWORD
  | IDENTIFIER
  | CONSTANT
  | DELIMITER
  | OPERATOR
  | ERROR
deriving DecidableEq, Repr

/-- `work1.Token`: a line number, a kind and a lexeme. -/
structure Token where
  line : Nat
  type : TokenType
  value : List Char
deriving DecidableEq, Repr

/-- The six keys of `Lexer.dfa_states` (the scanner's DFA states). -/
inductive DfaState where
  | START
  | IDENTIFIER
  | NUMBER
  | SCIENTIFIC
  | COMPLEX
  | STRING
deriving DecidableEq, Repr

/-- The mutable attributes of a `work1.Lexer` object.  `keywords` stands for
`self.grammar.keywords` (the only part of the loaded lexical grammar that
`tokenize` consults).  In Python `current_state`, `buffer` and
`current_input` are first assigned inside `tokenize`; the record keeps them
always present, and `tokenize` overwrites them on entry exactly as the
source does. -/
structure Lexer where
  keywords : List (List Char)
  line : Nat
  pos : Nat
  tokens : List Token
  currentState : DfaState
  buffer : List Char
  currentInput : List Char
deriving DecidableEq, Repr

/-- `code[i]` (all accesses in the source are guarded by `i < len(code)`). -/
def charAt (cs : List Char) (i : Nat) : Char :=
  cs.getD i ' '

/-- Fresh `Lexer(grammar_path)`: line 1, position 0, no tokens. -/
def initLexer (keywords : List (List Char)) : Lexer :=
  { keywords := keywords, line := 1, pos := 0, tokens := [],
    currentState := .START, buffer := [], currentInput := [] }

/-! ### Regular expressions of `determine_token_type`

The Python source classifies a finalized lexeme with `re.match` against
fixed patterns.  Each pattern is compiled here into an executable decision
procedure on `List Char`.  The alternation `(\d+\.\d+|\d+)` is compiled
with maximal-munch digit runs, which agrees with backtracking because in
every enclosing pattern the alternation's continuation starts with `[Ee]`,
`[+-]` or `i` — never with `.` or a digit. -/

/-- `\d+`: a non-empty run of digits. -/
def matchDigits (cs : List Char) : Bool :=
  !cs.isEmpty && cs.all isDigit

/-- Consume `(\d+\.\d+|\d+)`; return the rest of the input on success. -/
def matchMantissa (cs : List Char) : Option (List Char) :=
  let ds := cs.takeWhile isDigit
  let rest := cs.dropWhile isDigit
  if ds.isEmpty then none
  else
    match rest with
    | '.' :: r =>
      let ds2 := r.takeWhile isDigit
      if ds2.isEmpty then none else some (r.dropWhile isDigit)
    | r => some r

/-- Consume an optional leading sign `[+-]?`. -/
def dropSign (cs : List Char) : List Char :=
  match cs with
  | '+' :: r => r
  | '-' :: r => r
  | r => r

/-- `^[a-zA-Z_]\w*$` (ASCII reading of `\w`). -/
def matchIdentifier (cs : List Char) : Bool :=
  match cs with
  | [] => false
  | c :: rest => (isAlpha c || c = '_') && rest.all (fun x => isAlnum x || x = '_')

/-- `^[+-]?(\d+\.\d+|\d+)[Ee][+-]?\d+$`. -/
def matchScientific (cs : List Char) : Bool :=
  match matchMantissa (dropSign cs) with
  | some ('e' :: r) => matchDigits (dropSign r)
  | some ('E' :: r) => matchDigits (dropSign r)
  | _ => false

/-- `^[+-]?(\d+\.\d+|\d+)[+-](\d+\.\d+|\d+)i$`. -/
def matchComplex (cs : List Char) : Bool :=
  match matchMantissa (dropSign cs) with
  | some ('+' :: r) => (matchMantissa r).elim false (fun r2 => r2 = ['i'])
  | some ('-' :: r) => (matchMantissa r).elim false (fun r2 => r2 = ['i'])
  | _ => false

/-- `^([1-9]\d*|0)$`. -/
def matchInteger (cs : List Char) : Bool :=
  match cs with
  | ['0'] => true
  | c :: rest => ('1' ≤ c && c ≤ '9') && rest.all isDigit
  | [] => false

/-- `^[+-]?\d+\.\d+$`. -/
def matchFloat (cs : List Char) : Bool :=
  match matchMantissa (dropSign cs) with
  | some r => r.isEmpty && (dropSign cs).contains '.'
  | none => false

/-- `^".*"$` / `^'.*'$`: quote-delimited, `.` does not cross a newline.
Lexemes handed to this test by the scanner never contain a newline. -/
def matchQuoted (q : Char) (cs : List Char) : Bool :=
  match cs with
  | [] => false
  | c :: rest =>
    c = q && !rest.isEmpty && rest.getLast! = q &&
      !(rest.dropLast.contains '\n')

/-- `Lexer.determine_token_type`, the classification cascade applied when a
buffered lexeme is finalized. -/
def determine_token_type (keywords : List (List Char)) (value : List Char) : TokenType :=
  if value ∈ keywords then .KEYWORD
  else if matchIdentifier value then .IDENTIFIER
  else if matchScientific value then .CONSTANT
  else if matchComplex value then .CONSTANT
  else if matchInteger value then .CONSTANT
  else if matchFloat value then .CONSTANT
  else if matchQuoted '"' value || matchQuoted sqChar value then .CONSTANT
  else .ERROR

/-- `Lexer.finalize_token`: classify the buffer, append the token, clear the
buffer.  The recorded line is `self.line` at the moment of the call. -/
def finalize_token (st : Lexer) : Lexer :=
  { st with
    tokens := st.tokens ++ [⟨st.line, determine_token_type st.keywords st.buffer, st.buffer⟩],
    buffer := [] }

/-- `Lexer.add_operator`. -/
def add_operator (st : Lexer) (c : Char) : Lexer :=
  { st with tokens := st.tokens ++ [⟨st.line, .OPERATOR, [c]⟩] }

/-- `Lexer.add_delimiter`. -/
def add_delimiter (st : Lexer) (c : Char) : Lexer :=
  { st with tokens := st.tokens ++ [⟨st.line, .DELIMITER, [c]⟩] }

/-- `Lexer.add_error` (called with a single char or a joined buffer). -/
def add_error (st : Lexer) (s : List Char) : Lexer :=
  { st with tokens := st.tokens ++ [⟨st.line, .ERROR, s⟩] }

/-- The single-character operators recognized in `handle_start`. -/
def operatorChars : List Char := ['+', '-', '*', '/', '=', '<', '>', '!', '&', '|']

/-- The single-character delimiters recognized in `handle_start`. -/
def delimiterChars : List Char := [';', ',', '(', ')', '{', '}', '[', ']']

/-- `Lexer.handle_start`.  The final `else: self.add_error(char)` of the
source is commented out, so a character that matches no branch is dropped
without emitting anything (see claim C1). -/
def handle_start (st : Lexer) (c : Char) : Lexer :=
  if isAlpha c || c = '_' then
    { st with currentState := .IDENTIFIER, buffer := st.buffer ++ [c] }
  else if isDigit c then
    { st with currentState := .NUMBER, buffer := st.buffer ++ [c] }
  else if c = '"' then
    { st with currentState := .STRING, buffer := st.buffer ++ [c] }
  else if c ∈ operatorChars then
    add_operator st c
  else if c ∈ delimiterChars then
    add_delimiter st c
  else if c ∈ [' ', '\t', '\r'] then
    st
  else
    st

/-- `Lexer.handle_string`.  `buffer[-2]` is modelled with a default: when the
source evaluates it the buffer already holds the opening quote plus the
character just appended, so the index is in range. -/
def handle_string (st : Lexer) (c : Char) : Lexer :=
  let st := { st with buffer := st.buffer ++ [c] }
  if c = '"' && st.buffer.getD (st.buffer.length - 2) ' ' ≠ '\\' then
    { finalize_token st with currentState := .START }
  else if c = '\n' then
    { add_error st st.buffer with buffer := [], currentState := .START }
  else st

/-- `Lexer.handle_identifier`. -/
def handle_identifier (st : Lexer) (c : Char) : Lexer :=
  if isAlnum c || c = '_' then
    { st with buffer := st.buffer ++ [c] }
  else
    let st := finalize_token st
    { st with pos := st.pos - 1, currentState := .START }

/-- The inner `while` loop of the leading-zero branch of `handle_number`:
consume the maximal run of digits starting at `self.pos`.  Fuel
`input.length - pos` bounds the iterations (each one advances `pos`). -/
def consumeDigits : Nat → Lexer → Lexer
  | 0, st => st
  | fuel + 1, st =>
    if st.pos < st.currentInput.length && isDigit (charAt st.currentInput st.pos) then
      consumeDigits fuel
        { st with buffer := st.buffer ++ [charAt st.currentInput st.pos], pos := st.pos + 1 }
    else st

/-- `Lexer.handle_number`.  `buffer_str[-1]` is modelled with `getLastD`;
when the source evaluates it the buffer is non-empty (NUMBER is entered
with a digit in the buffer and the buffer only grows in this state). -/
def handle_number (st : Lexer) (c : Char) : Lexer :=
  let bufferStr := st.buffer
  if bufferStr.length = 1 && bufferStr.headD ' ' = '0' && isDigit c then
    let st := { st with buffer := st.buffer ++ [c] }
    let st := consumeDigits (st.currentInput.length - st.pos) st
    let st := add_error st st.buffer
    { st with buffer := [], currentState := .START }
  else if isDigit c then
    { st with buffer := st.buffer ++ [c] }
  else if c = '.' && !bufferStr.contains '.' &&
      !(bufferStr.any (fun x => x = 'e' || x = 'E')) then
    { st with buffer := st.buffer ++ [c] }
  else if (c = 'e' || c = 'E') && !(bufferStr.any (fun x => x = 'e' || x = 'E')) then
    { st with buffer := st.buffer ++ [c], currentState := .SCIENTIFIC }
  else if c = '+' || c = '-' then
    if bufferStr.getLastD ' ' = 'e' || bufferStr.getLastD ' ' = 'E' then
      { st with buffer := st.buffer ++ [c] }
    else
      { st with buffer := st.buffer ++ [c], currentState := .COMPLEX }
  else
    let st := finalize_token st
    { st with pos := st.pos - 1, currentState := .START }

/-- `Lexer.handle_scientific`. -/
def handle_scientific (st : Lexer) (c : Char) : Lexer :=
  if isDigit c || c = '+' || c = '-' then
    { st with buffer := st.buffer ++ [c] }
  else
    let st := finalize_token st
    { st with pos := st.pos - 1, currentState := .START }

/-- `buffer_str.split('+')[-1].split('-')[-1]`: the segment after the last
sign in the buffer. -/
def lastSignSegment (cs : List Char) : List Char :=
  ((cs.reverse.takeWhile (· ≠ '+')).takeWhile (· ≠ '-')).reverse

/-- `Lexer.handle_complex`.  In the fallback branch the source removes the
trailing sign from the buffer, finalizes the remainder if non-empty, and
backs the read position up by two characters. -/
def handle_complex (st : Lexer) (c : Char) : Lexer :=
  let bufferStr := st.buffer
  if isDigit c then
    { st with buffer := st.buffer ++ [c] }
  else if c = '.' && !(lastSignSegment bufferStr).contains '.' then
    { st with buffer := st.buffer ++ [c] }
  else if c = 'i' && bufferStr.length > 1 then
    let st := { st with buffer := st.buffer ++ [c] }
    { finalize_token st with currentState := .START }
  else
    let value := bufferStr.dropLast
    let st := if value ≠ [] then finalize_token { st with buffer := value } else st
    { st with pos := st.pos - 2, currentState := .START, buffer := [] }

/-- `Lexer.handle_unknown`.  Dead code in the source: `dfa_states` binds all
six states, so the `dict.get` default is never used. -/
def handle_unknown (st : Lexer) (c : Char) : Lexer :=
  { add_error st [c] with currentState := .START }

/-- `self.dfa_states.get(self.current_state, self.handle_unknown)` applied to
`char`: the handler table is total over the six states, so `handle_unknown`
is never selected. -/
def dispatch (st : Lexer) (c : Char) : Lexer :=
  match st.currentState with
  | .START => handle_start st c
  | .IDENTIFIER => handle_identifier st c
  | .NUMBER => handle_number st c
  | .SCIENTIFIC => handle_scientific st c
  | .COMPLEX => handle_complex st c
  | .STRING => handle_string st c

/-- One iteration of the `while self.pos < len(code)` loop of
`Lexer.tokenize`: read the character, advance `pos`, bump the line counter
on a newline, then dispatch to the handler of the current state. -/
def step (st : Lexer) : Lexer :=
  let c := charAt st.currentInput st.pos
  let st := { st with pos := st.pos + 1 }
  let st := if c = '\n' then { st with line := st.line + 1 } else st
  dispatch st c

/-- The scanner loop, fueled.  `run_completes` below shows the fuel used by
`tokenize` always finishes the loop. -/
def run : Nat → Lexer → Lexer
  | 0, st => st
  | fuel + 1, st =>
    if st.pos < st.currentInput.length then run fuel (step st) else st

/-- Fuel for `run`; an upper bound for the loop-variant measure `lexMeasure`. -/
def lexFuel (code : List Char) : Nat :=
  3 * (code.length + 1) + 5

/-- The state-reset prologue of `Lexer.tokenize`. -/
def tokenizeStart (st : Lexer) (code : List Char) : Lexer :=
  { st with currentState := .START, buffer := [], pos := 0, currentInput := code }

/-- `Lexer.tokenize`: reset the per-call fields (the token list and the line
counter are deliberately not reset), run the loop, flush a non-empty buffer.
The Python method returns `self.tokens`, i.e. the `tokens` field of the
resulting state. -/
def tokenize (st : Lexer) (code : List Char) : Lexer :=
  let st := run (lexFuel code) (tokenizeStart st code)
  if st.buffer ≠ [] then finalize_token st else st

/-- Line on which the character at index `i` of `code` sits (1-based), used
to state what the specification predicts for a token's `line` field. -/
def lineOfIndex (code : List Char) (i : Nat) : Nat :=
  1 + ((code.take i).filter (· = '\n')).length

/-- Weight of a DFA state for the loop variant. -/
def phi : DfaState → Nat
  | .START => 0
  | .IDENTIFIER => 1
  | .NUMBER => 2
  | .SCIENTIFIC => 2
  | .COMPLEX => 4
  | .STRING => 1

/-- Loop variant for `run`. -/
def lexMeasure (st : Lexer) : Nat :=
  3 * (st.currentInput.length + 1 - st.pos) + phi st.currentState

/-- The state reached by one loop iteration, before dispatching: `pos` is
advanced and the line counter bumped on a newline. -/
def bump (st : Lexer) : Lexer :=
  if charAt st.currentInput st.pos = '\n' then
    { st with pos := st.pos + 1, line := st.line + 1 }
  else
    { st with pos := st.pos + 1 }

/-- Invariant at the head of the scanner loop. -/
def lexInv (st : Lexer) : Prop :=
  (st.currentState = .NUMBER → 1 ≤ st.pos) ∧
  (st.currentState = .COMPLEX → 2 ≤ st.pos)

/-! ### `work1.GrammarParser` (the lexical-grammar loader, claim C8)

The Python string methods used by the loader (`strip`, `split`,
`startswith`, `join`) are modelled structurally on `List Char`, acting on
code points exactly as Python does. -/

/-- ASCII whitespace stripped by Python `str.strip()`. -/
def isPySpace (c : Char) : Bool :=
  c ∈ [' ', '\t', '\n', '\r', Char.ofNat 11, Char.ofNat 12]

/-- Python `line.strip()`. -/
def pyStrip (s : List Char) : List Char :=
  ((s.dropWhile isPySpace).reverse.dropWhile isPySpace).reverse

/-- Python `s.split(sep)` for a one-character separator. -/
def splitOnChar (sep : Char) : List Char → List (List Char)
  | [] => [[]]
  | c :: rest =>
    match splitOnChar sep rest with
    | [] => [[]]
    | part :: parts =>
      if c = sep then [] :: part :: parts else (c :: part) :: parts

/-- Python `sep.join(parts)` for a one-character separator. -/
def joinChar (sep : Char) : List (List Char) → List Char
  | [] => []
  | [x] => x
  | x :: xs => x ++ sep :: joinChar sep xs

/-- Python `s.strip("'")`: remove leading and trailing runs of single
quotes. -/
def stripQuoteEnds (s : List Char) : List Char :=
  ((s.dropWhile (· = sqChar)).reverse.dropWhile (· = sqChar)).reverse

/-- Python 3.7+ `re.escape`: backslash-escape the regex special characters
(ASCII letters, digits and `_` are left alone). -/
def reEscape (c : Char) : List Char :=
  if c ∈ ['(', ')', '[', ']', Char.ofNat 123, Char.ofNat 125, '?', '*', '+', '-', '|',
      '^', '$', '\\', '.', '&', '~', '#', ' ', '\t', '\n', '\r',
      Char.ofNat 11, Char.ofNat 12] then
    ['\\', c]
  else
    [c]

/-- The character walk of `GrammarParser.build_regex` over one alternative. -/
def buildRegexChars : List Char → List Char
  | [] => []
  | '\\' :: c :: rest => reEscape c ++ buildRegexChars rest
  | c :: rest =>
    (if c ∈ ['+', '*', '?', '(', ')', '[', ']', '.'] then ['\\', c]
     else [c]) ++ buildRegexChars rest

/-- `GrammarParser.build_regex`: escape each alternative and join them into
one anchored alternation. -/
def build_regex (expressions : List (List Char)) : List Char :=
  "^(".data ++ joinChar '|' (expressions.map buildRegexChars) ++ ")$".data

/-- Outcome of `GrammarParser.load_grammar` on the lines of an existing
grammar file.  `raised` is an exception escaping the method: the only
handler around the loop catches `FileNotFoundError`, nothing else.
`self.keywords` is a Python set, modelled as the list of added strings
(only membership is ever used). -/
inductive GrammarLoadResult where
  | done (keywords : List (List Char)) (rules : List (List Char × List Char))
  | raised (msg : String)
deriving DecidableEq, Repr

/-- The body of `GrammarParser.load_grammar`'s loop over the lines of the
grammar file.  A line without `→` makes `lhs, rhs = line.split('→', 1)`
raise an uncaught `ValueError` (`split('→', 1)` is split at the first
arrow, hence the re-join of the remaining parts). -/
def load_grammar_go : List (List Char) → List (List Char) →
    List (List Char × List Char) → GrammarLoadResult
  | [], kws, rules => .done kws rules
  | line :: rest, kws, rules =>
    let line := pyStrip line
    if line.isEmpty || line.headD ' ' = '#' then load_grammar_go rest kws rules
    else
      match splitOnChar '→' line with
      | [] => .raised "ValueError: not enough values to unpack (expected 2, got 0)"
      | [_] => .raised "ValueError: not enough values to unpack (expected 2, got 1)"
      | lhs :: parts =>
        let lhs := pyStrip lhs
        let rhs := joinChar '→' parts
        let rhsParts := (splitOnChar '|' rhs).map (fun s => stripQuoteEnds (pyStrip s))
        if lhs = "Keyword".data then load_grammar_go rest (kws ++ rhsParts) rules
        else load_grammar_go rest kws (rules ++ [(lhs, build_regex rhsParts)])

/-- `GrammarParser.load_grammar` applied to the lines of an existing file
(the `FileNotFoundError → sys.exit(1)` path concerns a missing file and is
outside this model). -/
def load_grammar (lines : List (List Char)) : GrammarLoadResult :=
  load_grammar_go lines [] []

end Work1

namespace Work2

/-- A single quote, as a string (code point 39). -/
def sq : String := String.singleton (Char.ofNat 39)

/-- Wrap a lexeme in single quotes, as `_convert_tokens` does. -/
def quoteSym (s : String) : String := sq ++ s ++ sq

/-- `work2.TokenType`. -/
inductive TokenType where
  | KEYWORD
  | IDENTIFIER
  | DELIMITER
  | OPERATOR
  | CONSTANT
  | ERROR
deriving DecidableEq, Repr

/-- `work2.Production` (frozen dataclass; structural equality). -/
structure Production where
  left : String
  right : List String
deriving DecidableEq, Repr

/-- `work2.LR1Item` (frozen dataclass; structural equality). -/
structure LR1Item where
  production : Production
  dot_position : Nat
  lookahead : String
deriving DecidableEq, Repr

/-- `LR1Item.get_next_symbol`. -/
def get_next_symbol (item : LR1Item) : Option String :=
  item.production.right.get? item.dot_position

/-- `LR1Item.is_complete`. -/
def is_complete (item : LR1Item) : Bool :=
  item.production.right.length ≤ item.dot_position

/-- The fields of `work2.Grammar` produced by `_load_grammar`: the ordered
productions, the terminal and non-terminal symbol sets (modelled as
duplicate-free lists in insertion order) and the first lhs as start
symbol. -/
structure Grammar where
  productions : List Production
  terminals : List String
  non_terminals : List String
  start_symbol : String
deriving DecidableEq, Repr

/-! ### `LR1Parser._compute_first_sets` -/

/-- First-set maps: Python's `dict` from symbol to `set` of symbols. -/
def FirstMap : Type := String → List String

/-- Add an element to a set-as-list if absent (Python `set.add` /
the effect of `set.update` per element). -/
def addUnique (acc : List String) (x : String) : List String :=
  if x ∈ acc then acc else acc ++ [x]

/-- `dst.update(src)` on sets-as-lists. -/
def setUpdate (dst src : List String) : List String :=
  src.foldl addUnique dst

/-- `first[left].update(x for x in first_symbol if x != 'ε')`. -/
def setUpdateNonEps (dst src : List String) : List String :=
  src.foldl (fun acc x => if x = "ε" then acc else addUnique acc x) dst

/-- Point update of a `FirstMap`. -/
def fmUpd (m : FirstMap) (k : String) (v : List String) : FirstMap :=
  fun s => if s = k then v else m s

/-- The `for symbol in prod.right: … else: …` loop of
`_compute_first_sets`, for one production `left → syms`, threading the
changed flag.  The `[]` case is the `for‑else` (also taken through the
source's explicit `if not prod.right` branch, which has the same effect):
add `ε` to `first[left]` if absent. -/
def firstProdStep (m : FirstMap) (left : String) : List String → FirstMap × Bool
  | [] =>
    if "ε" ∈ m left then (m, false)
    else (fmUpd m left (m left ++ ["ε"]), true)
  | symbol :: rest =>
    let first_symbol := m symbol
    let updated := setUpdateNonEps (m left) first_symbol
    let changed := decide ((m left).length < updated.length)
    let m1 := fmUpd m left updated
    if "ε" ∈ first_symbol then
      let (m2, changed2) := firstProdStep m1 left rest
      (m2, changed || changed2)
    else (m1, changed)

/-- One pass of the `while changed` loop over all productions. -/
def firstPass (m : FirstMap) : List Production → FirstMap × Bool
  | [] => (m, false)
  | p :: rest =>
    let (m1, c1) := firstProdStep m p.left p.right
    let (m2, c2) := firstPass m1 rest
    (m2, c1 || c2)

/-- The `while changed` loop, fueled; the fuel is proved sufficient for
well-formed grammars (`compute_first_sets_fix`). -/
def firstIter (prods : List Production) : Nat → FirstMap → FirstMap
  | 0, m => m
  | fuel + 1, m =>
    match firstPass m prods with
    | (m1, true) => firstIter prods fuel m1
    | (m1, false) => m1

/-- The duplicate-free list of grammar symbols (`terminals | non_terminals`). -/
def symbolsOf (g : Grammar) : List String :=
  (g.terminals ++ g.non_terminals).dedup

/-- Initial map: `{s: set() for s in terminals | non_terminals}` followed by
`first[t].add(t)` for terminals; other symbols would raise `KeyError` in
Python and are mapped to the empty set here (the well-formedness
hypotheses of the theorems rule them out). -/
def initFirst (g : Grammar) : FirstMap :=
  fun s => if s ∈ g.terminals then [s] else []

/-- Fuel for `firstIter`: the summed set sizes grow strictly on every
changed pass and are bounded by `|symbols| * (|symbols| + 1)`. -/
def firstFuel (g : Grammar) : Nat :=
  (symbolsOf g).length * ((symbolsOf g).length + 1) + 1

/-- `LR1Parser._compute_first_sets`. -/
def compute_first_sets (g : Grammar) : FirstMap :=
  firstIter g.productions (firstFuel g) (initFirst g)

/-! ### `LR1Parser._closure`, `_compute_lookaheads`, `_goto` -/

/-- The `for symbol in beta: … else: …` loop of `_compute_lookaheads`. -/
def lookaheadFold (fm : FirstMap) (la : String) : List String → List String → List String
  | [], acc => addUnique acc la
  | s :: rest, acc =>
    let acc := setUpdate acc (fm s)
    if "ε" ∈ fm s then lookaheadFold fm la rest acc else acc

/-- `LR1Parser._compute_lookaheads` (note the Python guard
`dot_position >= len(right) - 1`, which is also taken for an empty rhs). -/
def compute_lookaheads (fm : FirstMap) (item : LR1Item) : List String :=
  if item.production.right.length - 1 ≤ item.dot_position then [item.lookahead]
  else
    (lookaheadFold fm item.lookahead
      (item.production.right.drop (item.dot_position + 1)) []).filter (· ≠ "ε")

/-- One sweep of `_closure`'s `while True` loop: collect the missing items
(Python gathers them in a set `new_items` and unions; inserting each item
if absent yields the same set). -/
def closureStep (g : Grammar) (fm : FirstMap) (result : List LR1Item) : List LR1Item :=
  result.foldl (fun acc item =>
    match get_next_symbol item with
    | some nextSym =>
      if nextSym ∈ g.non_terminals then
        let lookaheads := compute_lookaheads fm item
        g.productions.foldl (fun acc2 prod =>
          if prod.left = nextSym then
            lookaheads.foldl (fun acc3 la =>
              let newItem : LR1Item := ⟨prod, 0, la⟩
              if newItem ∈ acc3 then acc3 else acc3 ++ [newItem]) acc2
          else acc2) acc
      else acc
    | none => acc) result

/-- The `while True` loop of `_closure`, fueled; it stops as soon as a sweep
adds nothing. -/
def closureIter (g : Grammar) (fm : FirstMap) : Nat → List LR1Item → List LR1Item
  | 0, result => result
  | fuel + 1, result =>
    let r := closureStep g fm result
    if r.length = result.length then result else closureIter g fm fuel r

/-- Fuel bound for `closureIter`: every sweep that continues adds at least
one item, and the number of distinct items `B → ·γ, b` is bounded. -/
def closureFuel (g : Grammar) : Nat :=
  ((g.productions.map (fun p => p.right.length + 1)).sum + 1) *
    (g.terminals.length + g.non_terminals.length + 2) + 1

/-- `LR1Parser._closure`. -/
def closure (g : Grammar) (fm : FirstMap) (items : List LR1Item) : List LR1Item :=
  closureIter g fm (closureFuel g) items

/-- `LR1Parser._goto`. -/
def gotoFn (g : Grammar) (fm : FirstMap) (items : List LR1Item) (symbol : String) :
    List LR1Item :=
  closure g fm (items.foldl (fun acc item =>
    if get_next_symbol item = some symbol then
      let adv : LR1Item := ⟨item.production, item.dot_position + 1, item.lookahead⟩
      if adv ∈ acc then acc else acc ++ [adv]
    else acc) [])

/-! ### `LR1Parser._build_states` -/

/-- The symbols appearing right after a dot in some item of the state
(Python collects them in a set, then sorts them). -/
def nextSymbolsOf (state : List LR1Item) : List String :=
  state.foldl (fun acc item =>
    match get_next_symbol item with
    | some s => if s ∈ acc then acc else acc ++ [s]
    | none => acc) []

/-- Code-point lexicographic order on strings (Python string `<`). -/
def charListLt : List Char → List Char → Bool
  | [], [] => false
  | [], _ :: _ => true
  | _ :: _, [] => false
  | a :: as, b :: bs => if a < b then true else if b < a then false else charListLt as bs

/-- Insert into a sorted list, stably. -/
def insertSorted (x : String) : List String → List String
  | [] => [x]
  | y :: ys => if charListLt x.data y.data then x :: y :: ys else y :: insertSorted x ys

/-- Python `sorted` on strings (code-point lexicographic, stable). -/
def sortStrings (l : List String) : List String :=
  l.foldr insertSorted []

/-- Python `frozenset` equality between states: same items. -/
def sameSet (a b : List LR1Item) : Bool :=
  a.all (· ∈ b) && b.all (· ∈ a)

/-- `state_map` lookup: the index of the already-registered state with the
same item set, if any. -/
def findState (states : List (List LR1Item)) (s : List LR1Item) : Option Nat :=
  states.findIdx? (fun t => sameSet t s)

/-- The `while index < len(states)` worklist of `_build_states`.  One unit
of fuel per processed state; the loop returns as soon as the index reaches
the end of the state list. -/
def build_states_loop (g : Grammar) (fm : FirstMap) :
    Nat → List (List LR1Item) → List ((Nat × String) × Nat) → Nat →
      List (List LR1Item) × List ((Nat × String) × Nat)
  | 0, states, gotoMap, _ => (states, gotoMap)
  | fuel + 1, states, gotoMap, index =>
    if index < states.length then
      let state := states.getD index []
      let symbols := sortStrings (nextSymbolsOf state)
      let next := symbols.foldl (fun (acc : _ × _) symbol =>
        let (sts, gm) := acc
        let next_state := gotoFn g fm state symbol
        if next_state.isEmpty then acc
        else
          match findState sts next_state with
          | some j => (sts, gm ++ [((index, symbol), j)])
          | none => (sts ++ [next_state], gm ++ [((index, symbol), sts.length)]))
        (states, gotoMap)
      build_states_loop g fm fuel next.1 next.2 (index + 1)
    else (states, gotoMap)

/-- `LR1Parser._build_states`: the initial state is the closure of the
*first* production whose lhs is the start symbol, with lookahead `$`
(`[p for p in productions if p.left == start][0]`). -/
def build_states (g : Grammar) (fm : FirstMap) :
    List (List LR1Item) × List ((Nat × String) × Nat) :=
  let start_prod := (g.productions.filter (fun p => p.left = g.start_symbol)).headD ⟨"", []⟩
  let initial_state := closure g fm [⟨start_prod, 0, "$"⟩]
  build_states_loop g fm 1000 [initial_state] [] 0

/-! ### `LR1Parser._build_parsing_tables` -/

/-- The three shapes of values stored in the ACTION dict:
`('shift', s)`, `('reduce', production)`, `('accept', None)`. -/
inductive ActionEntry where
  | shift (s : Nat)
  | reduce (p : Production)
  | accept
deriving DecidableEq, Repr

/-- Python `dict` lookup on an association list keyed by
`(state, symbol)`. -/
def dictGet? {α : Type} (m : List ((Nat × String) × α)) (k : Nat × String) : Option α :=
  (m.find? (fun e => e.1 == k)).map (·.2)

/-- Python `dict` assignment: overwrite the existing binding or append a
new one. -/
def dictSet {α : Type} (m : List ((Nat × String) × α)) (k : Nat × String) (v : α) :
    List ((Nat × String) × α) :=
  if (m.find? (fun e => e.1 == k)).isSome then
    m.map (fun e => if e.1 == k then (k, v) else e)
  else m ++ [(k, v)]

/-- `LR1Parser._build_parsing_tables`.  Shifts and gotos are entered first;
then every complete item proposes accept (when its lhs is the start
symbol, always at lookahead `$`) or reduce.  A reduce proposal yields to an
existing *shift* (shift-reduce policy) but silently overwrites anything
else — including another reduce: there is no fatal path for reduce-reduce
conflicts (claim C2). -/
def build_parsing_tables (g : Grammar) (states : List (List LR1Item))
    (gotoMap : List ((Nat × String) × Nat)) :
    List ((Nat × String) × ActionEntry) × List ((Nat × String) × Nat) :=
  (List.range states.length).foldl (fun (acc : _ × _) i =>
    let withShifts :=
      (g.terminals ++ g.non_terminals).foldl (fun (acc2 : _ × _) symbol =>
        match dictGet? gotoMap (i, symbol) with
        | some next_state =>
          if symbol ∈ g.terminals then (dictSet acc2.1 (i, symbol) (.shift next_state), acc2.2)
          else (acc2.1, dictSet acc2.2 (i, symbol) next_state)
        | none => acc2) acc
    let action := (states.getD i []).foldl (fun a item =>
      if is_complete item then
        if item.production.left = g.start_symbol then dictSet a (i, "$") .accept
        else
          match dictGet? a (i, item.lookahead) with
          | some (.shift _) => a
          | _ => dictSet a (i, item.lookahead) (.reduce item.production)
      else a) withShifts.1
    (action, withShifts.2)) ([], [])

/-- The whole table-construction pipeline of the `LR1Parser` constructor,
from a loaded grammar to the `(ACTION, GOTO)` pair. -/
def buildTables (g : Grammar) : List ((Nat × String) × ActionEntry) × List ((Nat × String) × Nat) :=
  let fm := compute_first_sets g
  let sg := build_states g fm
  build_parsing_tables g sg.1 sg.2

/-! ### `LR1Parser.parse` and `_convert_tokens` -/

/-- `LR1Parser._convert_tokens`: identifiers and constants map to the bare
symbols `ID`/`CONSTANT`; every other kind is wrapped in single quotes —
whatever quotes the lexeme may already carry. -/
def convert_tokens (tokens : List (Nat × TokenType × String)) : List String :=
  tokens.map (fun t =>
    match t.2.1 with
    | .KEYWORD => quoteSym t.2.2
    | .IDENTIFIER => "ID"
    | .CONSTANT => "CONSTANT"
    | .DELIMITER => quoteSym t.2.2
    | .OPERATOR => quoteSym t.2.2
    | .ERROR => quoteSym t.2.2)

/-- Outcome of a `parse` call: a returned `(success, errors)` pair, or an
exception escaping the method (there is no `try` around the loop). -/
inductive ParseResult where
  | returned (ok : Bool) (errors : List String)
  | raised (msg : String)
  | outOfFuel
deriving DecidableEq, Repr

/-- `for _ in range(n): stack.pop()` — `none` models the `IndexError` on an
exhausted stack. -/
def popN : Nat → List (Nat × String) → Option (List (Nat × String))
  | 0, stack => some stack
  | n + 1, stack => if stack.isEmpty then none else popN n stack.dropLast

/-- The syntax-error message: the converted token is interpolated between
single quotes, *in addition to* any quotes `_convert_tokens` already
added. -/
def syntaxErrorMsg (line_no : Nat) (tok : String) : String :=
  "Line " ++ toString line_no ++ ": Syntax error, unexpected token " ++ sq ++ tok ++ sq

/-- The `while True` loop of `LR1Parser.parse`.  The missing-GOTO case in
the reduce branch is `self.goto_table[prev_state, value.left]`, a raw dict
subscript: it raises `KeyError` (claim C6).  The source's final `else`
branch (`Invalid action in parser`) is unreachable, because every value
stored in the ACTION table is a shift, reduce or accept; accordingly the
model's action type has only those three constructors.  Trace printing and
`save_to_file` are I/O and not modelled. -/
def parse_loop (action : List ((Nat × String) × ActionEntry))
    (goto_table : List ((Nat × String) × Nat))
    (tokens : List (Nat × TokenType × String)) (input_tokens : List String) :
    Nat → List (Nat × String) → Nat → ParseResult
  | 0, _, _ => .outOfFuel
  | fuel + 1, stack, pos =>
    match stack.getLast? with
    | none => .raised "IndexError: stack is empty"
    | some top =>
      match input_tokens.get? pos with
      | none => .raised "IndexError: input exhausted"
      | some current_token =>
        match dictGet? action (top.1, current_token) with
        | none =>
          if h : pos < tokens.length then
            .returned false [syntaxErrorMsg (tokens.get ⟨pos, h⟩).1 current_token]
          else
            match tokens.getLast? with
            | none => .raised "IndexError: token list is empty"
            | some last => .returned false [syntaxErrorMsg last.1 current_token]
        | some (.shift v) =>
          parse_loop action goto_table tokens input_tokens fuel
            (stack ++ [(v, current_token)]) (pos + 1)
        | some (.reduce p) =>
          match popN p.right.length stack with
          | none => .raised "IndexError: pop from empty list"
          | some stack1 =>
            match stack1.getLast? with
            | none => .raised "IndexError: stack is empty"
            | some prev =>
              match dictGet? goto_table (prev.1, p.left) with
              | none => .raised "KeyError: missing goto entry"
              | some goto_state =>
                parse_loop action goto_table tokens input_tokens fuel
                  (stack1 ++ [(goto_state, p.left)]) pos
        | some .accept => .returned true []

/-- `LR1Parser.parse`: stack `[(0, '$')]`, input the converted tokens plus
`'$'`.  The fuel is ample for the concrete runs proved about below; the
loop's own `errors` list is empty until the single appending return. -/
def parse (action : List ((Nat × String) × ActionEntry))
    (goto_table : List ((Nat × String) × Nat))
    (tokens : List (Nat × TokenType × String)) : ParseResult :=
  parse_loop action goto_table tokens (convert_tokens tokens ++ ["$"])
    (100 * (tokens.length + 2)) [(0, "$")] 0

/-- Specification side: the chain condition for one production
`left → syms`: `FIRST(left)` contains `FIRST(X₁)\{ε}`, and the condition
continues past `Xᵢ` whenever `ε ∈ FIRST(Xᵢ)`; if it runs off the end
(in particular for an empty rhs), `ε ∈ FIRST(left)`. -/
def prodClosedS (F : String → Set String) (left : String) : List String → Prop
  | [] => "ε" ∈ F left
  | s :: rest => (∀ x ∈ F s, x ≠ "ε" → x ∈ F left) ∧ ("ε" ∈ F s → prodClosedS F left rest)

/-- Specification side: a FIRST-assignment closed under the claim's rules. -/
def FirstClosedS (g : Grammar) (F : String → Set String) : Prop :=
  (∀ t ∈ g.terminals, t ∈ F t) ∧ ∀ p ∈ g.productions, prodClosedS F p.left p.right

/-- The sets-of-strings reading of a computed `FirstMap`. -/
def memFirst (m : FirstMap) : String → Set String := fun s => {x | x ∈ m s}

/-- `ε`-soundness invariant: every `ε` in the map is justified by a
production whose rhs symbols all have `ε`. -/
def epsJust (prods : List Production) (m : FirstMap) : Prop :=
  ∀ A, "ε" ∈ m A → ∃ p ∈ prods, p.left = A ∧ ∀ s ∈ p.right, "ε" ∈ m s

/-- Summed set sizes over the grammar symbols: the loop variant of the
`while changed` loop. -/
def measureOf (symbols : List String) (m : FirstMap) : Nat :=
  (symbols.map (fun s => (m s).length)).sum

/-- The expression grammar named by claim C7:
`E → E '+' T | T; T → T '*' F | F; F → '(' E ')' | ID`, as `_load_grammar`
represents it (quoted terminals, first lhs as start symbol). -/
def grammar7 : Grammar :=
  { productions := [⟨"E", ["E", quoteSym "+", "T"]⟩, ⟨"E", ["T"]⟩,
      ⟨"T", ["T", quoteSym "*", "F"]⟩, ⟨"T", ["F"]⟩,
      ⟨"F", [quoteSym "(", "E", quoteSym ")"]⟩, ⟨"F", ["ID"]⟩],
    terminals := [quoteSym "+", quoteSym "*", quoteSym "(", quoteSym ")", "ID"],
    non_terminals := ["E", "T", "F"],
    start_symbol := "E" }

/-- The token sequence `ID '+' '+' ID` of claim C7, all on line 1, in the
shape `parse` receives from the lexer. -/
def toks7 : List (Nat × TokenType × String) :=
  [(1, .IDENTIFIER, "a"), (1, .OPERATOR, "+"), (1, .OPERATOR, "+"), (1, .IDENTIFIER, "b")]

/-- A grammar with a reduce-reduce conflict (claim C2): after shifting `'a'`
the state holds the two complete items `B → 'a' ·, $` and `C → 'a' ·, $`. -/
def grammarRR : Grammar :=
  { productions := [⟨"S", ["A"]⟩, ⟨"A", ["B"]⟩, ⟨"A", ["C"]⟩,
      ⟨"B", [quoteSym "a"]⟩, ⟨"C", [quoteSym "a"]⟩],
    terminals := [quoteSym "a"],
    non_terminals := ["S", "A", "B", "C"],
    start_symbol := "S" }

/-- An ACTION table whose only entry reduces by `S → ε` (claim C6): taking
that reduction uncovers state 0, for which the GOTO table below has no
entry. -/
def act6 : List ((Nat × String) × ActionEntry) := [((0, "ID"), .reduce ⟨"S", []⟩)]

/-- A one-token input for the claim C6 run. -/
def toks6 : List (Nat × TokenType × String) := [(1, .IDENTIFIER, "x")]

/-- A small well-formed grammar (`S → ID | ε`) used to instantiate the
hypotheses of the claim C5 theorem. -/
def gW : Grammar :=
  { productions := [⟨"S", ["ID"]⟩, ⟨"S", []⟩],
    terminals := ["ID"],
    non_terminals := ["S"],
    start_symbol := "S" }

end Work2

namespace Work1

/-! ### Basic facts about `consumeDigits` -/

theorem consumeDigits_fields (n : Nat) : ∀ st : Lexer,
    (consumeDigits n st).currentInput = st.currentInput ∧
    (consumeDigits n st).currentState = st.currentState ∧
    (consumeDigits n st).line = st.line ∧
    (consumeDigits n st).tokens = st.tokens ∧
    (consumeDigits n st).keywords = st.keywords ∧
    st.pos ≤ (consumeDigits n st).pos := by
  induction n with
  | zero => intro st; exact ⟨rfl, rfl, rfl, rfl, rfl, Nat.le_refl _⟩
  | succ n ih =>
    intro st
    cases st with
    | mk kw line pos toks state buf inp =>
      simp only [consumeDigits]
      split
      · refine ⟨(ih _).1, (ih _).2.1, (ih _).2.2.1, (ih _).2.2.2.1, (ih _).2.2.2.2.1, ?_⟩
        exact Nat.le_trans (Nat.le_succ pos)
          ((ih { keywords := kw, line := line, pos := pos + 1, tokens := toks,
                 currentState := state, buffer := buf ++ [charAt inp pos],
                 currentInput := inp }).2.2.2.2.2)
      · exact ⟨rfl, rfl, rfl, rfl, rfl, Nat.le_refl _⟩

theorem consumeDigits_pos_le (n : Nat) : ∀ st : Lexer,
    st.pos ≤ st.currentInput.length →
    (consumeDigits n st).pos ≤ st.currentInput.length := by
  induction n with
  | zero => intro st h; exact h
  | succ n ih =>
    intro st h
    cases st with
    | mk kw line pos toks state buf inp =>
      simp only [consumeDigits]
      split
      · rename_i hcond
        simp only [Bool.and_eq_true, decide_eq_true_eq] at hcond
        exact ih _ hcond.1
      · exact h

theorem consumeDigits_tokens_set (n : Nat) : ∀ (st : Lexer) (ts : List Token),
    consumeDigits n { st with tokens := ts } = { consumeDigits n st with tokens := ts } := by
  induction n with
  | zero => intro st ts; rfl
  | succ n ih =>
    intro st ts
    cases st with
    | mk kw line pos toks state buf inp =>
      simp only [consumeDigits]
      split
      · exact ih { keywords := kw, line := line, pos := pos + 1, tokens := toks,
                   currentState := state, buffer := buf ++ [charAt inp pos],
                   currentInput := inp } ts
      · rfl

/-- The inner loop of the leading-zero branch consumes exactly the maximal
digit run beginning at the current position, provided the fuel covers the
remaining input (the call site passes `length - pos`). -/
theorem consumeDigits_spec (n : Nat) : ∀ st : Lexer,
    st.currentInput.length - st.pos ≤ n →
    consumeDigits n st =
      { st with
        buffer := st.buffer ++ (st.currentInput.drop st.pos).takeWhile (fun c => isDigit c),
        pos := st.pos + ((st.currentInput.drop st.pos).takeWhile (fun c => isDigit c)).length } := by
  induction n with
  | zero =>
    intro st h
    have hge : st.currentInput.length ≤ st.pos := by omega
    have hdrop : st.currentInput.drop st.pos = [] := List.drop_eq_nil_of_le hge
    cases st with
    | mk kw line pos toks state buf inp =>
      simp only at hdrop
      simp [consumeDigits, hdrop]
  | succ n ih =>
    intro st h
    cases st with
    | mk kw line pos toks state buf inp =>
      simp only [consumeDigits]
      simp only at h
      by_cases hlt : pos < inp.length
      · have hdrop : inp.drop pos = charAt inp pos :: inp.drop (pos + 1) := by
          have h2 := List.drop_eq_getElem_cons hlt
          simp only [charAt, List.getD, List.get?_eq_getElem?,
            List.getElem?_eq_getElem hlt, Option.getD_some]
          exact h2
        by_cases hdig : isDigit (charAt inp pos) = true
        · rw [if_pos (by simp [hlt, hdig])]
          rw [ih _ (by simp only; omega)]
          simp only [hdrop, List.takeWhile_cons, hdig]
          simp [List.append_assoc]
          omega
        · rw [if_neg (by simp [hdig])]
          simp only [hdrop, List.takeWhile_cons, hdig]
          simp
      · rw [if_neg (by simp [hlt])]
        have hdrop : inp.drop pos = [] := List.drop_eq_nil_of_le (by omega)
        simp only [hdrop]
        simp

/-! ### Termination of the scanner loop

The loop of `tokenize` advances `pos` by one before dispatching, but three
handlers move `pos` back (by one on an ordinary finalization, by two in the
COMPLEX fallback).  The measure below decreases at every iteration, which
shows the fuel `lexFuel` suffices and hence that the fueled `run` is a
faithful model of the Python `while` loop. -/


theorem handle_start_cases (st : Lexer) (c : Char) (hst : st.currentState = .START) :
    (handle_start st c).currentInput = st.currentInput ∧
    (handle_start st c).pos = st.pos ∧
    phi (handle_start st c).currentState ≤ 2 := by
  cases st with
  | mk kw line pos toks state buf inp =>
    obtain rfl : state = .START := hst
    unfold handle_start add_operator add_delimiter
    split_ifs <;> exact ⟨rfl, rfl, by simp [phi]⟩

theorem handle_identifier_cases (st : Lexer) (c : Char)
    (hst : st.currentState = .IDENTIFIER) :
    (handle_identifier st c).currentInput = st.currentInput ∧
    (((handle_identifier st c).pos = st.pos ∧
         phi (handle_identifier st c).currentState = 1) ∨
      ((handle_identifier st c).pos = st.pos - 1 ∧
         phi (handle_identifier st c).currentState = 0)) := by
  cases st with
  | mk kw line pos toks state buf inp =>
    obtain rfl : state = .IDENTIFIER := hst
    unfold handle_identifier finalize_token
    split_ifs <;> refine ⟨rfl, ?_⟩
    · exact Or.inl ⟨rfl, rfl⟩
    · exact Or.inr ⟨rfl, rfl⟩

theorem handle_number_cases (st : Lexer) (c : Char) (hst : st.currentState = .NUMBER) :
    (handle_number st c).currentInput = st.currentInput ∧
    ((st.pos ≤ (handle_number st c).pos ∧
         phi (handle_number st c).currentState = 0) ∨
      ((handle_number st c).pos = st.pos ∧
         phi (handle_number st c).currentState ≤ 4) ∨
      ((handle_number st c).pos = st.pos - 1 ∧
         phi (handle_number st c).currentState = 0)) := by
  cases st with
  | mk kw line pos toks state buf inp =>
    obtain rfl : state = .NUMBER := hst
    unfold handle_number finalize_token add_error
    dsimp only
    split_ifs
    · -- leading-zero branch: the inner loop only advances the position
      have hfields := consumeDigits_fields (inp.length - pos)
        { keywords := kw, line := line, pos := pos, tokens := toks,
          currentState := .NUMBER, buffer := buf ++ [c], currentInput := inp }
      exact ⟨hfields.1, Or.inl ⟨hfields.2.2.2.2.2, rfl⟩⟩
    · exact ⟨rfl, Or.inr (Or.inl ⟨rfl, by simp [phi]⟩)⟩
    · exact ⟨rfl, Or.inr (Or.inl ⟨rfl, by simp [phi]⟩)⟩
    · exact ⟨rfl, Or.inr (Or.inl ⟨rfl, by simp [phi]⟩)⟩
    · exact ⟨rfl, Or.inr (Or.inl ⟨rfl, by simp [phi]⟩)⟩
    · exact ⟨rfl, Or.inr (Or.inl ⟨rfl, by simp [phi]⟩)⟩
    · exact ⟨rfl, Or.inr (Or.inr ⟨rfl, rfl⟩)⟩

theorem handle_scientific_cases (st : Lexer) (c : Char)
    (hst : st.currentState = .SCIENTIFIC) :
    (handle_scientific st c).currentInput = st.currentInput ∧
    (((handle_scientific st c).pos = st.pos ∧
         phi (handle_scientific st c).currentState = 2) ∨
      ((handle_scientific st c).pos = st.pos - 1 ∧
         phi (handle_scientific st c).currentState = 0)) := by
  cases st with
  | mk kw line pos toks state buf inp =>
    obtain rfl : state = .SCIENTIFIC := hst
    unfold handle_scientific finalize_token
    split_ifs <;> refine ⟨rfl, ?_⟩
    · exact Or.inl ⟨rfl, rfl⟩
    · exact Or.inr ⟨rfl, rfl⟩

theorem handle_complex_cases (st : Lexer) (c : Char) (hst : st.currentState = .COMPLEX) :
    (handle_complex st c).currentInput = st.currentInput ∧
    (((handle_complex st c).pos = st.pos ∧
         phi (handle_complex st c).currentState ≤ 4) ∨
      ((handle_complex st c).pos = st.pos - 2 ∧
         phi (handle_complex st c).currentState = 0)) := by
  cases st with
  | mk kw line pos toks state buf inp =>
    obtain rfl : state = .COMPLEX := hst
    unfold handle_complex finalize_token
    dsimp only
    split_ifs <;> refine ⟨rfl, ?_⟩
    · exact Or.inl ⟨rfl, by simp [phi]⟩
    · exact Or.inl ⟨rfl, by simp [phi]⟩
    · exact Or.inl ⟨rfl, by simp [phi]⟩
    · exact Or.inr ⟨rfl, rfl⟩
    · exact Or.inr ⟨rfl, rfl⟩

theorem handle_string_cases (st : Lexer) (c : Char) (hst : st.currentState = .STRING) :
    (handle_string st c).currentInput = st.currentInput ∧
    (handle_string st c).pos = st.pos ∧
    phi (handle_string st c).currentState ≤ 1 := by
  cases st with
  | mk kw line pos toks state buf inp =>
    obtain rfl : state = .STRING := hst
    unfold handle_string finalize_token add_error
    dsimp only
    split_ifs <;> exact ⟨rfl, rfl, by simp [phi]⟩

theorem dispatch_cases (st : Lexer) (c : Char) :
    (dispatch st c).currentInput = st.currentInput ∧
    ((st.pos ≤ (dispatch st c).pos ∧ phi (dispatch st c).currentState = 0) ∨
      ((dispatch st c).pos = st.pos ∧
        phi (dispatch st c).currentState ≤ phi st.currentState + 2) ∨
      ((dispatch st c).pos = st.pos - 1 ∧ phi (dispatch st c).currentState = 0 ∧
        1 ≤ phi st.currentState) ∨
      ((dispatch st c).pos = st.pos - 2 ∧ phi (dispatch st c).currentState = 0 ∧
        4 ≤ phi st.currentState)) := by
  cases hs : st.currentState
  case START =>
    obtain ⟨h1, h2, h3⟩ := handle_start_cases st c hs
    simp only [dispatch, hs]
    exact ⟨h1, Or.inr (Or.inl ⟨h2, by have e : phi DfaState.START = 0 := rfl; omega⟩)⟩
  case IDENTIFIER =>
    obtain ⟨h1, h2⟩ := handle_identifier_cases st c hs
    simp only [dispatch, hs]
    rcases h2 with ⟨hp, hphi⟩ | ⟨hp, hphi⟩
    · exact ⟨h1, Or.inr (Or.inl ⟨hp, by have e : phi DfaState.IDENTIFIER = 1 := rfl; omega⟩)⟩
    · exact ⟨h1, Or.inr (Or.inr (Or.inl ⟨hp, hphi, by decide⟩))⟩
  case NUMBER =>
    obtain ⟨h1, h2⟩ := handle_number_cases st c hs
    simp only [dispatch, hs]
    rcases h2 with ⟨hp, hphi⟩ | ⟨hp, hphi⟩ | ⟨hp, hphi⟩
    · exact ⟨h1, Or.inl ⟨hp, hphi⟩⟩
    · exact ⟨h1, Or.inr (Or.inl ⟨hp, by have e : phi DfaState.NUMBER = 2 := rfl; omega⟩)⟩
    · exact ⟨h1, Or.inr (Or.inr (Or.inl ⟨hp, hphi, by decide⟩))⟩
  case SCIENTIFIC =>
    obtain ⟨h1, h2⟩ := handle_scientific_cases st c hs
    simp only [dispatch, hs]
    rcases h2 with ⟨hp, hphi⟩ | ⟨hp, hphi⟩
    · exact ⟨h1, Or.inr (Or.inl ⟨hp, by have e : phi DfaState.SCIENTIFIC = 2 := rfl; omega⟩)⟩
    · exact ⟨h1, Or.inr (Or.inr (Or.inl ⟨hp, hphi, by decide⟩))⟩
  case COMPLEX =>
    obtain ⟨h1, h2⟩ := handle_complex_cases st c hs
    simp only [dispatch, hs]
    rcases h2 with ⟨hp, hphi⟩ | ⟨hp, hphi⟩
    · exact ⟨h1, Or.inr (Or.inl ⟨hp, by have e : phi DfaState.COMPLEX = 4 := rfl; omega⟩)⟩
    · exact ⟨h1, Or.inr (Or.inr (Or.inr ⟨hp, hphi, by decide⟩))⟩
  case STRING =>
    obtain ⟨h1, h2, h3⟩ := handle_string_cases st c hs
    simp only [dispatch, hs]
    exact ⟨h1, Or.inr (Or.inl ⟨h2, by have e : phi DfaState.STRING = 1 := rfl; omega⟩)⟩


theorem step_eq_bump (st : Lexer) :
    step st = dispatch (bump st) (charAt st.currentInput st.pos) := by
  unfold step bump
  dsimp only

theorem bump_pos (st : Lexer) : (bump st).pos = st.pos + 1 := by
  unfold bump; split <;> rfl

theorem bump_currentState (st : Lexer) : (bump st).currentState = st.currentState := by
  unfold bump; split <;> rfl

theorem bump_currentInput (st : Lexer) : (bump st).currentInput = st.currentInput := by
  unfold bump; split <;> rfl

theorem bump_tokens (st : Lexer) : (bump st).tokens = st.tokens := by
  unfold bump; split <;> rfl

theorem bump_buffer (st : Lexer) : (bump st).buffer = st.buffer := by
  unfold bump; split <;> rfl

theorem bump_keywords (st : Lexer) : (bump st).keywords = st.keywords := by
  unfold bump; split <;> rfl

theorem step_currentInput (st : Lexer) : (step st).currentInput = st.currentInput := by
  rw [step_eq_bump]
  rw [(dispatch_cases (bump st) (charAt st.currentInput st.pos)).1]
  exact bump_currentInput st

theorem step_decreases (st : Lexer) (h : st.pos < st.currentInput.length) :
    lexMeasure (step st) < lexMeasure st := by
  unfold lexMeasure
  rw [step_currentInput st, step_eq_bump]
  obtain ⟨h1, hcases⟩ := dispatch_cases (bump st) (charAt st.currentInput st.pos)
  rw [bump_pos, bump_currentState] at hcases
  rcases hcases with ⟨hp, hphi⟩ | ⟨hp, hphi⟩ | ⟨hp, hphi, hge⟩ | ⟨hp, hphi, hge⟩ <;> omega

theorem run_currentInput (fuel : Nat) : ∀ st : Lexer,
    (run fuel st).currentInput = st.currentInput := by
  induction fuel with
  | zero => intro st; rfl
  | succ fuel ih =>
    intro st
    unfold run
    split
    · rw [ih (step st), step_currentInput]
    · rfl

theorem run_completes (fuel : Nat) : ∀ st : Lexer, lexMeasure st ≤ fuel →
    ¬ (run fuel st).pos < (run fuel st).currentInput.length := by
  induction fuel with
  | zero =>
    intro st h
    unfold run
    intro hlt
    unfold lexMeasure at h
    omega
  | succ fuel ih =>
    intro st h
    unfold run
    split
    · rename_i hp
      exact ih (step st) (by have := step_decreases st hp; omega)
    · assumption

/-- The fuel chosen by `tokenize` always completes the `while` loop: at the
end of `run` the position has reached the end of the input, exactly as when
the Python loop exits. -/
theorem tokenize_loop_completes (st : Lexer) (code : List Char) :
    ¬ (run (lexFuel code) (tokenizeStart st code)).pos
        < (run (lexFuel code) (tokenizeStart st code)).currentInput.length := by
  apply run_completes
  unfold lexMeasure tokenizeStart lexFuel
  have e : phi DfaState.START = 0 := rfl
  dsimp only
  omega

/-! ### What a single iteration emits

Every token appended during one loop iteration carries the line counter as
it stands *after* the newline bump of that iteration; no handler modifies
the line counter itself. -/

theorem handle_start_emits (st : Lexer) (c : Char) :
    (handle_start st c).line = st.line ∧
    ∃ ts, (handle_start st c).tokens = st.tokens ++ ts ∧
      ∀ t ∈ ts, t.line = st.line := by
  cases st with
  | mk kw line pos toks state buf inp =>
    unfold handle_start add_operator add_delimiter
    dsimp only
    split_ifs
    · exact ⟨rfl, [], by simp, by simp⟩
    · exact ⟨rfl, [], by simp, by simp⟩
    · exact ⟨rfl, [], by simp, by simp⟩
    · exact ⟨rfl, [⟨line, .OPERATOR, [c]⟩], rfl, by simp⟩
    · exact ⟨rfl, [⟨line, .DELIMITER, [c]⟩], rfl, by simp⟩
    · exact ⟨rfl, [], by simp, by simp⟩
    · exact ⟨rfl, [], by simp, by simp⟩

theorem handle_identifier_emits (st : Lexer) (c : Char) :
    (handle_identifier st c).line = st.line ∧
    ∃ ts, (handle_identifier st c).tokens = st.tokens ++ ts ∧
      ∀ t ∈ ts, t.line = st.line := by
  cases st with
  | mk kw line pos toks state buf inp =>
    unfold handle_identifier finalize_token
    dsimp only
    split_ifs
    · exact ⟨rfl, [], by simp, by simp⟩
    · exact ⟨rfl, [⟨line, determine_token_type kw buf, buf⟩], rfl, by simp⟩

theorem handle_number_emits (st : Lexer) (c : Char) :
    (handle_number st c).line = st.line ∧
    ∃ ts, (handle_number st c).tokens = st.tokens ++ ts ∧
      ∀ t ∈ ts, t.line = st.line := by
  cases st with
  | mk kw line pos toks state buf inp =>
    unfold handle_number finalize_token add_error
    dsimp only
    split_ifs
    · -- leading-zero branch
      obtain ⟨-, -, hline, htoks, -, -⟩ := consumeDigits_fields (inp.length - pos)
        { keywords := kw, line := line, pos := pos, tokens := toks,
          currentState := state, buffer := buf ++ [c], currentInput := inp }
      constructor
      · exact hline
      · refine ⟨[⟨line, .ERROR,
          (consumeDigits (inp.length - pos)
            { keywords := kw, line := line, pos := pos, tokens := toks,
              currentState := state, buffer := buf ++ [c], currentInput := inp }).buffer⟩],
          ?_, by simp⟩
        dsimp only
        rw [htoks, hline]
    · exact ⟨rfl, [], by simp, by simp⟩
    · exact ⟨rfl, [], by simp, by simp⟩
    · exact ⟨rfl, [], by simp, by simp⟩
    · exact ⟨rfl, [], by simp, by simp⟩
    · exact ⟨rfl, [], by simp, by simp⟩
    · exact ⟨rfl, [⟨line, determine_token_type kw buf, buf⟩], rfl, by simp⟩

theorem handle_scientific_emits (st : Lexer) (c : Char) :
    (handle_scientific st c).line = st.line ∧
    ∃ ts, (handle_scientific st c).tokens = st.tokens ++ ts ∧
      ∀ t ∈ ts, t.line = st.line := by
  cases st with
  | mk kw line pos toks state buf inp =>
    unfold handle_scientific finalize_token
    dsimp only
    split_ifs
    · exact ⟨rfl, [], by simp, by simp⟩
    · exact ⟨rfl, [⟨line, determine_token_type kw buf, buf⟩], rfl, by simp⟩

theorem handle_complex_emits (st : Lexer) (c : Char) :
    (handle_complex st c).line = st.line ∧
    ∃ ts, (handle_complex st c).tokens = st.tokens ++ ts ∧
      ∀ t ∈ ts, t.line = st.line := by
  cases st with
  | mk kw line pos toks state buf inp =>
    unfold handle_complex finalize_token
    dsimp only
    split_ifs
    · exact ⟨rfl, [], by simp, by simp⟩
    · exact ⟨rfl, [], by simp, by simp⟩
    · exact ⟨rfl, [⟨line, determine_token_type kw (buf ++ [c]), buf ++ [c]⟩], rfl, by simp⟩
    · exact ⟨rfl, [⟨line, determine_token_type kw buf.dropLast, buf.dropLast⟩], rfl, by simp⟩
    · exact ⟨rfl, [], by simp, by simp⟩

theorem handle_string_emits (st : Lexer) (c : Char) :
    (handle_string st c).line = st.line ∧
    ∃ ts, (handle_string st c).tokens = st.tokens ++ ts ∧
      ∀ t ∈ ts, t.line = st.line := by
  cases st with
  | mk kw line pos toks state buf inp =>
    unfold handle_string finalize_token add_error
    dsimp only
    split_ifs
    · exact ⟨rfl, [⟨line, determine_token_type kw (buf ++ [c]), buf ++ [c]⟩], rfl, by simp⟩
    · exact ⟨rfl, [⟨line, .ERROR, buf ++ [c]⟩], rfl, by simp⟩
    · exact ⟨rfl, [], by simp, by simp⟩

theorem dispatch_emits (st : Lexer) (c : Char) :
    (dispatch st c).line = st.line ∧
    ∃ ts, (dispatch st c).tokens = st.tokens ++ ts ∧
      ∀ t ∈ ts, t.line = st.line := by
  cases hs : st.currentState <;> simp only [dispatch, hs]
  · exact handle_start_emits st c
  · exact handle_identifier_emits st c
  · exact handle_number_emits st c
  · exact handle_scientific_emits st c
  · exact handle_complex_emits st c
  · exact handle_string_emits st c

/-- Tokens appended by one loop iteration all record the line counter as it
stands when the iteration ends (the newline bump happens before dispatch,
and no handler changes the counter). -/
theorem step_emits (st : Lexer) :
    ∃ ts, (step st).tokens = st.tokens ++ ts ∧
      ∀ t ∈ ts, t.line = (step st).line := by
  rw [step_eq_bump]
  obtain ⟨hline, ts, htoks, hts⟩ := dispatch_emits (bump st) (charAt st.currentInput st.pos)
  refine ⟨ts, ?_, ?_⟩
  · rw [htoks, bump_tokens]
  · intro t ht
    rw [hline]
    exact hts t ht

/-! ### The token list is append-only and drives nothing

Handlers only ever append to `self.tokens`; no control decision reads it.
These frame lemmas justify that `tokenize` on a second call simply extends
the token list produced by the first call (claim C10). -/

theorem consumeDigits_tokens_out (n : Nat) (kw : List (List Char)) (line pos : Nat)
    (toks : List Token) (state : DfaState) (buf inp : List Char) :
    consumeDigits n ⟨kw, line, pos, toks, state, buf, inp⟩ =
      { consumeDigits n ⟨kw, line, pos, [], state, buf, inp⟩ with tokens := toks } :=
  consumeDigits_tokens_set n ⟨kw, line, pos, [], state, buf, inp⟩ toks

theorem handle_start_frame (st : Lexer) (c : Char) :
    handle_start st c =
      { handle_start { st with tokens := [] } c with
        tokens := st.tokens ++ (handle_start { st with tokens := [] } c).tokens } := by
  cases st with
  | mk kw line pos toks state buf inp =>
    unfold handle_start add_operator add_delimiter
    dsimp only
    split_ifs <;> simp

theorem handle_identifier_frame (st : Lexer) (c : Char) :
    handle_identifier st c =
      { handle_identifier { st with tokens := [] } c with
        tokens := st.tokens ++ (handle_identifier { st with tokens := [] } c).tokens } := by
  cases st with
  | mk kw line pos toks state buf inp =>
    unfold handle_identifier finalize_token
    dsimp only
    split_ifs <;> simp

theorem handle_number_frame (st : Lexer) (c : Char) :
    handle_number st c =
      { handle_number { st with tokens := [] } c with
        tokens := st.tokens ++ (handle_number { st with tokens := [] } c).tokens } := by
  cases st with
  | mk kw line pos toks state buf inp =>
    unfold handle_number finalize_token add_error
    dsimp only
    split_ifs <;> try simp
    -- leading-zero branch
    obtain ⟨-, -, -, htoks, -, -⟩ := consumeDigits_fields (inp.length - pos)
      ⟨kw, line, pos, [], state, buf ++ [c], inp⟩
    rw [consumeDigits_tokens_out]
    simp [htoks]

theorem handle_scientific_frame (st : Lexer) (c : Char) :
    handle_scientific st c =
      { handle_scientific { st with tokens := [] } c with
        tokens := st.tokens ++ (handle_scientific { st with tokens := [] } c).tokens } := by
  cases st with
  | mk kw line pos toks state buf inp =>
    unfold handle_scientific finalize_token
    dsimp only
    split_ifs <;> simp

theorem handle_complex_frame (st : Lexer) (c : Char) :
    handle_complex st c =
      { handle_complex { st with tokens := [] } c with
        tokens := st.tokens ++ (handle_complex { st with tokens := [] } c).tokens } := by
  cases st with
  | mk kw line pos toks state buf inp =>
    unfold handle_complex finalize_token
    dsimp only
    split_ifs <;> simp

theorem handle_string_frame (st : Lexer) (c : Char) :
    handle_string st c =
      { handle_string { st with tokens := [] } c with
        tokens := st.tokens ++ (handle_string { st with tokens := [] } c).tokens } := by
  cases st with
  | mk kw line pos toks state buf inp =>
    unfold handle_string finalize_token add_error
    dsimp only
    split_ifs <;> simp

theorem dispatch_frame (st : Lexer) (c : Char) :
    dispatch st c =
      { dispatch { st with tokens := [] } c with
        tokens := st.tokens ++ (dispatch { st with tokens := [] } c).tokens } := by
  cases st with
  | mk kw line pos toks state buf inp =>
    cases state
    case START => exact handle_start_frame ⟨kw, line, pos, toks, .START, buf, inp⟩ c
    case IDENTIFIER =>
      exact handle_identifier_frame ⟨kw, line, pos, toks, .IDENTIFIER, buf, inp⟩ c
    case NUMBER => exact handle_number_frame ⟨kw, line, pos, toks, .NUMBER, buf, inp⟩ c
    case SCIENTIFIC =>
      exact handle_scientific_frame ⟨kw, line, pos, toks, .SCIENTIFIC, buf, inp⟩ c
    case COMPLEX =>
      exact handle_complex_frame ⟨kw, line, pos, toks, .COMPLEX, buf, inp⟩ c
    case STRING => exact handle_string_frame ⟨kw, line, pos, toks, .STRING, buf, inp⟩ c

theorem bump_tokens_set (st : Lexer) :
    bump { st with tokens := [] } = { bump st with tokens := [] } := by
  cases st with
  | mk kw line pos toks state buf inp =>
    unfold bump
    dsimp only
    split_ifs <;> rfl

theorem step_frame (st : Lexer) :
    step st =
      { step { st with tokens := [] } with
        tokens := st.tokens ++ (step { st with tokens := [] }).tokens } := by
  rw [step_eq_bump st, step_eq_bump { st with tokens := [] }]
  have hb : bump { st with tokens := [] } = { bump st with tokens := [] } :=
    bump_tokens_set st
  rw [hb]
  have h := dispatch_frame (bump st) (charAt st.currentInput st.pos)
  rw [bump_tokens] at h
  exact h

theorem run_frame (fuel : Nat) : ∀ st : Lexer,
    run fuel st =
      { run fuel { st with tokens := [] } with
        tokens := st.tokens ++ (run fuel { st with tokens := [] }).tokens } := by
  induction fuel with
  | zero =>
    intro st
    simp [run]
  | succ fuel ih =>
    intro st
    unfold run
    dsimp only
    split
    · rw [ih (step st), ih (step { st with tokens := [] })]
      rw [step_frame st]
      dsimp only
      simp [List.append_assoc]
    · dsimp only
      simp

theorem finalize_token_set (x : Lexer) (ts : List Token) :
    finalize_token { x with tokens := ts } =
      { finalize_token x with
        tokens := ts ++ [⟨x.line, determine_token_type x.keywords x.buffer, x.buffer⟩] } := by
  cases x
  rfl

theorem tokenize_frame (st : Lexer) (code : List Char) :
    tokenize st code =
      { tokenize { st with tokens := [] } code with
        tokens := st.tokens ++ (tokenize { st with tokens := [] } code).tokens } := by
  unfold tokenize
  dsimp only
  have hstart : tokenizeStart { st with tokens := [] } code
      = { tokenizeStart st code with tokens := [] } := rfl
  rw [hstart]
  rw [run_frame (lexFuel code) (tokenizeStart st code)]
  dsimp only
  split_ifs with hbuf
  · rw [finalize_token_set]
    simp [finalize_token, List.append_assoc]
    rfl
  · rfl

theorem dispatch_keywords (st : Lexer) (c : Char) :
    (dispatch st c).keywords = st.keywords := by
  cases st with
  | mk kw line pos toks state buf inp =>
    cases state
    case START =>
      show (handle_start ⟨kw, line, pos, toks, .START, buf, inp⟩ c).keywords = kw
      unfold handle_start add_operator add_delimiter
      dsimp only
      split_ifs <;> rfl
    case IDENTIFIER =>
      show (handle_identifier ⟨kw, line, pos, toks, .IDENTIFIER, buf, inp⟩ c).keywords = kw
      unfold handle_identifier finalize_token
      dsimp only
      split_ifs <;> rfl
    case NUMBER =>
      show (handle_number ⟨kw, line, pos, toks, .NUMBER, buf, inp⟩ c).keywords = kw
      unfold handle_number finalize_token add_error
      dsimp only
      split_ifs <;>
        first
        | rfl
        | exact (consumeDigits_fields (inp.length - pos)
            ⟨kw, line, pos, toks, .NUMBER, buf ++ [c], inp⟩).2.2.2.2.1
    case SCIENTIFIC =>
      show (handle_scientific ⟨kw, line, pos, toks, .SCIENTIFIC, buf, inp⟩ c).keywords = kw
      unfold handle_scientific finalize_token
      dsimp only
      split_ifs <;> rfl
    case COMPLEX =>
      show (handle_complex ⟨kw, line, pos, toks, .COMPLEX, buf, inp⟩ c).keywords = kw
      unfold handle_complex finalize_token
      dsimp only
      split_ifs <;> rfl
    case STRING =>
      show (handle_string ⟨kw, line, pos, toks, .STRING, buf, inp⟩ c).keywords = kw
      unfold handle_string finalize_token add_error
      dsimp only
      split_ifs <;> rfl

theorem step_keywords (st : Lexer) : (step st).keywords = st.keywords := by
  rw [step_eq_bump]
  rw [dispatch_keywords, bump_keywords]

theorem run_keywords (fuel : Nat) : ∀ st : Lexer,
    (run fuel st).keywords = st.keywords := by
  induction fuel with
  | zero => intro st; rfl
  | succ fuel ih =>
    intro st
    unfold run
    split
    · rw [ih (step st), step_keywords]
    · rfl

theorem tokenize_keywords (st : Lexer) (code : List Char) :
    (tokenize st code).keywords = st.keywords := by
  unfold tokenize
  dsimp only
  split_ifs
  · show (finalize_token _).keywords = _
    unfold finalize_token
    exact run_keywords (lexFuel code) (tokenizeStart st code)
  · exact run_keywords (lexFuel code) (tokenizeStart st code)

/-! ### Position invariant for the COMPLEX back-step (claim C9)

Entering NUMBER consumes at least one character, and entering COMPLEX
consumes at least one more (the sign), so whenever `handle_complex` runs,
at least three characters have been consumed and the two-character
back-step cannot move the position before the start of the input. -/


theorem handle_start_inv (st : Lexer) (c : Char) (hst : st.currentState = .START)
    (hpos : 1 ≤ st.pos) : lexInv (handle_start st c) := by
  cases st with
  | mk kw line pos toks state buf inp =>
    obtain rfl : state = .START := hst
    unfold handle_start add_operator add_delimiter lexInv
    dsimp only
    dsimp only at hpos
    split_ifs <;> exact ⟨fun _ => hpos, fun hc => absurd hc (by decide)⟩

theorem handle_identifier_inv (st : Lexer) (c : Char)
    (hst : st.currentState = .IDENTIFIER) : lexInv (handle_identifier st c) := by
  cases st with
  | mk kw line pos toks state buf inp =>
    obtain rfl : state = .IDENTIFIER := hst
    unfold handle_identifier finalize_token lexInv
    dsimp only
    split_ifs <;>
      exact ⟨fun hc => absurd hc (by decide), fun hc => absurd hc (by decide)⟩

theorem handle_number_inv (st : Lexer) (c : Char) (hst : st.currentState = .NUMBER)
    (hpos : 2 ≤ st.pos) : lexInv (handle_number st c) := by
  cases st with
  | mk kw line pos toks state buf inp =>
    obtain rfl : state = .NUMBER := hst
    unfold handle_number finalize_token add_error lexInv
    dsimp only
    dsimp only at hpos
    split_ifs
    · exact ⟨fun hc => absurd hc (by decide), fun hc => absurd hc (by decide)⟩
    · exact ⟨fun _ => Nat.le_of_succ_le hpos, fun hc => absurd hc (by decide)⟩
    · exact ⟨fun _ => Nat.le_of_succ_le hpos, fun hc => absurd hc (by decide)⟩
    · exact ⟨fun hc => absurd hc (by decide), fun hc => absurd hc (by decide)⟩
    · exact ⟨fun _ => Nat.le_of_succ_le hpos, fun hc => absurd hc (by decide)⟩
    · exact ⟨fun hc => absurd hc (by decide), fun _ => hpos⟩
    · exact ⟨fun hc => absurd hc (by decide), fun hc => absurd hc (by decide)⟩

theorem handle_scientific_inv (st : Lexer) (c : Char)
    (hst : st.currentState = .SCIENTIFIC) : lexInv (handle_scientific st c) := by
  cases st with
  | mk kw line pos toks state buf inp =>
    obtain rfl : state = .SCIENTIFIC := hst
    unfold handle_scientific finalize_token lexInv
    dsimp only
    split_ifs <;>
      exact ⟨fun hc => absurd hc (by decide), fun hc => absurd hc (by decide)⟩

theorem handle_complex_inv (st : Lexer) (c : Char) (hst : st.currentState = .COMPLEX)
    (hpos : 3 ≤ st.pos) : lexInv (handle_complex st c) := by
  cases st with
  | mk kw line pos toks state buf inp =>
    obtain rfl : state = .COMPLEX := hst
    unfold handle_complex finalize_token lexInv
    dsimp only
    dsimp only at hpos
    split_ifs
    · exact ⟨fun hc => absurd hc (by decide), fun _ => Nat.le_of_succ_le hpos⟩
    · exact ⟨fun hc => absurd hc (by decide), fun _ => Nat.le_of_succ_le hpos⟩
    · exact ⟨fun hc => absurd hc (by decide), fun hc => absurd hc (by decide)⟩
    · exact ⟨fun hc => absurd hc (by decide), fun hc => absurd hc (by decide)⟩
    · exact ⟨fun hc => absurd hc (by decide), fun hc => absurd hc (by decide)⟩

theorem handle_string_inv (st : Lexer) (c : Char)
    (hst : st.currentState = .STRING) : lexInv (handle_string st c) := by
  cases st with
  | mk kw line pos toks state buf inp =>
    obtain rfl : state = .STRING := hst
    unfold handle_string finalize_token add_error lexInv
    dsimp only
    split_ifs <;>
      exact ⟨fun hc => absurd hc (by decide), fun hc => absurd hc (by decide)⟩

theorem dispatch_inv (st : Lexer) (c : Char)
    (h0 : 1 ≤ st.pos)
    (h1 : st.currentState = .NUMBER → 2 ≤ st.pos)
    (h2 : st.currentState = .COMPLEX → 3 ≤ st.pos) :
    lexInv (dispatch st c) := by
  cases st with
  | mk kw line pos toks state buf inp =>
    cases state
    case START => exact handle_start_inv ⟨kw, line, pos, toks, .START, buf, inp⟩ c rfl h0
    case IDENTIFIER =>
      exact handle_identifier_inv ⟨kw, line, pos, toks, .IDENTIFIER, buf, inp⟩ c rfl
    case NUMBER =>
      exact handle_number_inv ⟨kw, line, pos, toks, .NUMBER, buf, inp⟩ c rfl (h1 rfl)
    case SCIENTIFIC =>
      exact handle_scientific_inv ⟨kw, line, pos, toks, .SCIENTIFIC, buf, inp⟩ c rfl
    case COMPLEX =>
      exact handle_complex_inv ⟨kw, line, pos, toks, .COMPLEX, buf, inp⟩ c rfl (h2 rfl)
    case STRING =>
      exact handle_string_inv ⟨kw, line, pos, toks, .STRING, buf, inp⟩ c rfl

theorem step_preserves_inv (st : Lexer) (h : lexInv st) : lexInv (step st) := by
  rw [step_eq_bump]
  apply dispatch_inv
  · rw [bump_pos]; omega
  · intro hs
    rw [bump_pos]
    have := h.1 (by rw [← bump_currentState st]; exact hs)
    omega
  · intro hs
    rw [bump_pos]
    have := h.2 (by rw [← bump_currentState st]; exact hs)
    omega

theorem run_preserves_inv (fuel : Nat) : ∀ st : Lexer, lexInv st → lexInv (run fuel st) := by
  induction fuel with
  | zero => intro st h; exact h
  | succ fuel ih =>
    intro st h
    unfold run
    split
    · exact ih (step st) (step_preserves_inv st h)
    · exact h

theorem tokenizeStart_inv (st : Lexer) (code : List Char) :
    lexInv (tokenizeStart st code) :=
  ⟨fun hc => DfaState.noConfusion hc, fun hc => DfaState.noConfusion hc⟩


end Work1


namespace Work2

/-! ### Verification of `_compute_first_sets` (claim C5)

The claim states that the computed FIRST sets are the least solution of
the textbook closure conditions.  `prodClosedS`/`FirstClosedS` below are
the specification-side rendering of those conditions, written from the
claim's words; the theorems relate them to the `compute_first_sets`
function embedded from the source. -/


theorem setUpdateNonEps_spec (src : List String) : ∀ dst : List String,
    ∃ extra, setUpdateNonEps dst src = dst ++ extra ∧ extra.Nodup ∧
      ∀ x ∈ extra, x ∈ src ∧ x ≠ "ε" ∧ x ∉ dst := by
  induction src with
  | nil => intro dst; exact ⟨[], by simp [setUpdateNonEps], List.nodup_nil, by simp⟩
  | cons y src ih =>
    intro dst
    show ∃ extra, List.foldl _ (if y = "ε" then dst else addUnique dst y) src = _ ∧ _
    by_cases hy : y = "ε"
    · rw [if_pos hy]
      obtain ⟨e, he, hnd, hprop⟩ := ih dst
      exact ⟨e, he, hnd, fun x hx =>
        ⟨List.mem_cons_of_mem y (hprop x hx).1, (hprop x hx).2.1, (hprop x hx).2.2⟩⟩
    · rw [if_neg hy]
      by_cases hmem : y ∈ dst
      · have ha : addUnique dst y = dst := by unfold addUnique; rw [if_pos hmem]
        rw [ha]
        obtain ⟨e, he, hnd, hprop⟩ := ih dst
        exact ⟨e, he, hnd, fun x hx =>
          ⟨List.mem_cons_of_mem y (hprop x hx).1, (hprop x hx).2.1, (hprop x hx).2.2⟩⟩
      · have ha : addUnique dst y = dst ++ [y] := by unfold addUnique; rw [if_neg hmem]
        rw [ha]
        obtain ⟨e, he, hnd, hprop⟩ := ih (dst ++ [y])
        refine ⟨y :: e, ?_, ?_, ?_⟩
        · show setUpdateNonEps (dst ++ [y]) src = dst ++ y :: e
          rw [he]
          simp
        · refine List.nodup_cons.2 ⟨fun hye => ?_, hnd⟩
          have := (hprop y hye).2.2
          simp at this
        · intro x hx
          rcases List.mem_cons.1 hx with rfl | hx
          · exact ⟨List.mem_cons_self _ _, hy, hmem⟩
          · obtain ⟨h1, h2, h3⟩ := hprop x hx
            exact ⟨List.mem_cons_of_mem y h1, h2, fun hxd => h3 (by simp [hxd])⟩

theorem setUpdateNonEps_complete (src : List String) : ∀ (dst : List String) (x : String),
    x ∈ src → x ≠ "ε" → x ∈ setUpdateNonEps dst src := by
  induction src with
  | nil => intro dst x hx; cases hx
  | cons y src ih =>
    intro dst x hx hne
    show x ∈ List.foldl _ (if y = "ε" then dst else addUnique dst y) src
    rcases List.mem_cons.1 hx with rfl | hx
    · rw [if_neg hne]
      have hy : x ∈ addUnique dst x := by
        unfold addUnique
        split_ifs with h
        · exact h
        · simp
      obtain ⟨e, he, -, -⟩ := setUpdateNonEps_spec src (addUnique dst x)
      show x ∈ setUpdateNonEps (addUnique dst x) src
      rw [he]
      exact List.mem_append_left _ hy
    · split_ifs with hy
      · exact ih dst x hx hne
      · exact ih (addUnique dst y) x hx hne

theorem mem_of_mem_setUpdateNonEps {src dst : List String} {x : String}
    (h : x ∈ setUpdateNonEps dst src) : x ∈ dst ∨ (x ∈ src ∧ x ≠ "ε") := by
  obtain ⟨e, he, -, hprop⟩ := setUpdateNonEps_spec src dst
  rw [he] at h
  rcases List.mem_append.1 h with h | h
  · exact Or.inl h
  · exact Or.inr ⟨(hprop x h).1, (hprop x h).2.1⟩

theorem setUpdateNonEps_eq_of_length {src dst : List String}
    (h : ¬ dst.length < (setUpdateNonEps dst src).length) :
    setUpdateNonEps dst src = dst := by
  obtain ⟨e, he, -, -⟩ := setUpdateNonEps_spec src dst
  rw [he] at h ⊢
  simp at h
  subst h
  simp

theorem setUpdateNonEps_nodup {src dst : List String} (h : dst.Nodup) :
    (setUpdateNonEps dst src).Nodup := by
  obtain ⟨e, he, hnd, hprop⟩ := setUpdateNonEps_spec src dst
  rw [he]
  refine List.Nodup.append h hnd ?_
  intro x hx hex
  exact (hprop x hex).2.2 hx

theorem fmUpd_self (m : FirstMap) (k : String) (v : List String) : fmUpd m k v k = v := by
  simp [fmUpd]

theorem fmUpd_other (m : FirstMap) (k : String) (v : List String) (s : String)
    (h : s ≠ k) : fmUpd m k v s = m s := by
  simp [fmUpd, h]

theorem fmUpd_id (m : FirstMap) (k : String) : fmUpd m k (m k) = m := by
  funext s
  by_cases hs : s = k
  · subst hs; exact fmUpd_self m s (m s)
  · exact fmUpd_other m k (m k) s hs

theorem updNonEps_extension (m : FirstMap) (left : String) (src : List String) (s : String) :
    ∃ e, fmUpd m left (setUpdateNonEps (m left) src) s = m s ++ e ∧ ∀ x ∈ e, x ≠ "ε" := by
  by_cases hs : s = left
  · subst hs
    obtain ⟨e, he, -, hp⟩ := setUpdateNonEps_spec src (m s)
    exact ⟨e, by rw [fmUpd_self, he], fun x hx => (hp x hx).2.1⟩
  · exact ⟨[], by rw [fmUpd_other _ _ _ _ hs]; simp, by simp⟩

theorem firstProdStep_cons (m : FirstMap) (left y : String) (rest : List String) :
    firstProdStep m left (y :: rest) =
      (if "ε" ∈ m y then
        ((firstProdStep (fmUpd m left (setUpdateNonEps (m left) (m y))) left rest).1,
          decide ((m left).length < (setUpdateNonEps (m left) (m y)).length)
            || (firstProdStep (fmUpd m left (setUpdateNonEps (m left) (m y))) left rest).2)
      else (fmUpd m left (setUpdateNonEps (m left) (m y)),
        decide ((m left).length < (setUpdateNonEps (m left) (m y)).length))) := by
  conv_lhs => unfold firstProdStep

theorem firstProdStep_main (left : String) : ∀ (syms : List String) (m : FirstMap),
    (∀ s, ∃ e, (firstProdStep m left syms).1 s = m s ++ e) ∧
    (∀ s, s ≠ left → (firstProdStep m left syms).1 s = m s) ∧
    ((firstProdStep m left syms).2 = false → (firstProdStep m left syms).1 = m) ∧
    ((firstProdStep m left syms).2 = true →
      (m left).length < ((firstProdStep m left syms).1 left).length) ∧
    ((firstProdStep m left syms).2 = false → prodClosedS (memFirst m) left syms) := by
  intro syms
  induction syms with
  | nil =>
    intro m
    unfold firstProdStep
    split_ifs with h
    · exact ⟨fun s => ⟨[], by simp⟩, fun s _ => rfl, fun _ => rfl,
        fun hc => by simp at hc, fun _ => h⟩
    · refine ⟨?_, ?_, ?_, ?_, ?_⟩
      · intro s
        by_cases hs : s = left
        · subst hs; exact ⟨["ε"], by dsimp only; rw [fmUpd_self]⟩
        · exact ⟨[], by dsimp only; rw [fmUpd_other _ _ _ _ hs]; simp⟩
      · intro s hs
        dsimp only
        exact fmUpd_other _ _ _ _ hs
      · intro hc; simp at hc
      · intro _
        dsimp only
        rw [fmUpd_self]
        simp
      · intro hc; simp at hc
  | cons y rest ih =>
    intro m
    rw [firstProdStep_cons]
    by_cases hy : "ε" ∈ m y
    · rw [if_pos hy]
      dsimp only
      refine ⟨?_, ?_, ?_, ?_, ?_⟩
      · intro s
        obtain ⟨e1, he1, -⟩ := updNonEps_extension m left (m y) s
        obtain ⟨e2, he2⟩ := (ih (fmUpd m left (setUpdateNonEps (m left) (m y)))).1 s
        exact ⟨e1 ++ e2, by rw [he2, he1, List.append_assoc]⟩
      · intro s hs
        rw [(ih _).2.1 s hs, fmUpd_other _ _ _ _ hs]
      · intro hc
        simp only [Bool.or_eq_false_iff] at hc
        have hupd : setUpdateNonEps (m left) (m y) = m left :=
          setUpdateNonEps_eq_of_length (by simpa using hc.1)
        rw [hupd, fmUpd_id] at hc ⊢
        exact (ih m).2.2.1 hc.2
      · intro hc
        rcases Bool.or_eq_true_iff.1 hc with hc1 | hc2
        · have h1 : (m left).length < (setUpdateNonEps (m left) (m y)).length := by
            simpa using hc1
          obtain ⟨e2, he2⟩ := (ih (fmUpd m left (setUpdateNonEps (m left) (m y)))).1 left
          rw [he2, fmUpd_self]
          calc (m left).length < (setUpdateNonEps (m left) (m y)).length := h1
            _ ≤ _ := by simp
        · by_cases hch : (m left).length < (setUpdateNonEps (m left) (m y)).length
          · obtain ⟨e2, he2⟩ := (ih (fmUpd m left (setUpdateNonEps (m left) (m y)))).1 left
            rw [he2, fmUpd_self]
            calc (m left).length < (setUpdateNonEps (m left) (m y)).length := hch
              _ ≤ _ := by simp
          · have hupd : setUpdateNonEps (m left) (m y) = m left :=
              setUpdateNonEps_eq_of_length hch
            rw [hupd, fmUpd_id] at hc2 ⊢
            exact (ih m).2.2.2.1 hc2
      · intro hc
        simp only [Bool.or_eq_false_iff] at hc
        have hupd : setUpdateNonEps (m left) (m y) = m left :=
          setUpdateNonEps_eq_of_length (by simpa using hc.1)
        have hm1 : fmUpd m left (setUpdateNonEps (m left) (m y)) = m := by
          rw [hupd, fmUpd_id]
        constructor
        · intro x hx hne
          have : x ∈ setUpdateNonEps (m left) (m y) := setUpdateNonEps_complete _ _ _ hx hne
          rw [hupd] at this
          exact this
        · intro _
          rw [hm1] at hc
          exact (ih m).2.2.2.2 hc.2
    · rw [if_neg hy]
      dsimp only
      refine ⟨?_, ?_, ?_, ?_, ?_⟩
      · intro s
        obtain ⟨e1, he1, -⟩ := updNonEps_extension m left (m y) s
        exact ⟨e1, he1⟩
      · intro s hs; exact fmUpd_other _ _ _ _ hs
      · intro hc
        have hupd : setUpdateNonEps (m left) (m y) = m left :=
          setUpdateNonEps_eq_of_length (by simpa using hc)
        rw [hupd, fmUpd_id]
      · intro hc
        rw [fmUpd_self]
        simpa using hc
      · intro hc
        have hupd : setUpdateNonEps (m left) (m y) = m left :=
          setUpdateNonEps_eq_of_length (by simpa using hc)
        constructor
        · intro x hx hne
          have : x ∈ setUpdateNonEps (m left) (m y) := setUpdateNonEps_complete _ _ _ hx hne
          rw [hupd] at this
          exact this
        · intro hεy
          exact absurd hεy hy

theorem firstProdStep_sound (G : String → Set String) (left : String) :
    ∀ (syms : List String) (m : FirstMap),
    (∀ s x, x ∈ m s → x ∈ G s) → prodClosedS G left syms →
    ∀ s x, x ∈ (firstProdStep m left syms).1 s → x ∈ G s := by
  intro syms
  induction syms with
  | nil =>
    intro m hm hcl s x hx
    unfold firstProdStep at hx
    split_ifs at hx with h
    · exact hm s x hx
    · dsimp only at hx
      by_cases hs : s = left
      · subst hs
        rw [fmUpd_self] at hx
        rcases List.mem_append.1 hx with hx | hx
        · exact hm s x hx
        · simp at hx
          subst hx
          exact hcl
      · rw [fmUpd_other _ _ _ _ hs] at hx
        exact hm s x hx
  | cons y rest ih =>
    intro m hm hcl s x hx
    rw [firstProdStep_cons] at hx
    have hm1 : ∀ s x, x ∈ fmUpd m left (setUpdateNonEps (m left) (m y)) s → x ∈ G s := by
      intro s x hx
      by_cases hs : s = left
      · subst hs
        rw [fmUpd_self] at hx
        rcases mem_of_mem_setUpdateNonEps hx with hx | ⟨hx, hne⟩
        · exact hm s x hx
        · exact hcl.1 x (hm y x hx) hne
      · rw [fmUpd_other _ _ _ _ hs] at hx
        exact hm s x hx
    by_cases hy : "ε" ∈ m y
    · rw [if_pos hy] at hx
      dsimp only at hx
      exact ih _ hm1 (hcl.2 (hm y "ε" hy)) s x hx
    · rw [if_neg hy] at hx
      dsimp only at hx
      exact hm1 s x hx

theorem epsJust_lift {prods : List Production} {m m' : FirstMap} {A : String}
    (hmono : ∀ s x, x ∈ m s → x ∈ m' s)
    (h : ∃ p ∈ prods, p.left = A ∧ ∀ s ∈ p.right, "ε" ∈ m s) :
    ∃ p ∈ prods, p.left = A ∧ ∀ s ∈ p.right, "ε" ∈ m' s := by
  obtain ⟨p, hp, hl, hall⟩ := h
  exact ⟨p, hp, hl, fun s hs => hmono s "ε" (hall s hs)⟩

theorem epsJust_extension {prods : List Production} {m m' : FirstMap}
    (hJ : epsJust prods m)
    (hext : ∀ s, ∃ e, m' s = m s ++ e ∧ ∀ x ∈ e, x ≠ "ε") :
    epsJust prods m' := by
  have hmono : ∀ s x, x ∈ m s → x ∈ m' s := by
    intro s x hx
    obtain ⟨e, he, -⟩ := hext s
    rw [he]
    exact List.mem_append_left _ hx
  intro A hA
  obtain ⟨e, he, hne⟩ := hext A
  rw [he] at hA
  rcases List.mem_append.1 hA with hA | hA
  · exact epsJust_lift hmono (hJ A hA)
  · exact absurd rfl (hne _ hA)

theorem firstProdStep_eps (prods : List Production) (p : Production) (hp : p ∈ prods)
    (left : String) (hleft : p.left = left) :
    ∀ (syms : List String) (m : FirstMap), epsJust prods m →
    (∀ s ∈ p.right, "ε" ∈ m s ∨ s ∈ syms) →
    epsJust prods (firstProdStep m left syms).1 := by
  intro syms
  induction syms with
  | nil =>
    intro m hJ hsplit
    unfold firstProdStep
    split_ifs with h
    · exact hJ
    · dsimp only
      have hmono : ∀ s x, x ∈ m s → x ∈ fmUpd m left (m left ++ ["ε"]) s := by
        intro s x hx
        by_cases hs : s = left
        · subst hs; rw [fmUpd_self]; exact List.mem_append_left _ hx
        · rw [fmUpd_other _ _ _ _ hs]; exact hx
      intro A hA
      by_cases hs : A = left
      · subst hs
        exact epsJust_lift hmono
          ⟨p, hp, hleft, fun s hs => (hsplit s hs).resolve_right (by simp)⟩
      · rw [fmUpd_other _ _ _ _ hs] at hA
        exact epsJust_lift hmono (hJ A hA)
  | cons y rest ih =>
    intro m hJ hsplit
    rw [firstProdStep_cons]
    have hext : ∀ s, ∃ e, fmUpd m left (setUpdateNonEps (m left) (m y)) s = m s ++ e ∧
        ∀ x ∈ e, x ≠ "ε" := updNonEps_extension m left (m y)
    have hJ1 : epsJust prods (fmUpd m left (setUpdateNonEps (m left) (m y))) :=
      epsJust_extension hJ hext
    by_cases hy : "ε" ∈ m y
    · rw [if_pos hy]
      dsimp only
      apply ih _ hJ1
      intro s hs
      have hmono : ∀ x, x ∈ m s → x ∈ fmUpd m left (setUpdateNonEps (m left) (m y)) s := by
        intro x hx
        obtain ⟨e, he, -⟩ := hext s
        rw [he]
        exact List.mem_append_left _ hx
      rcases hsplit s hs with hε | hmem
      · exact Or.inl (hmono _ hε)
      · rcases List.mem_cons.1 hmem with rfl | hmem
        · exact Or.inl (hmono _ hy)
        · exact Or.inr hmem
    · rw [if_neg hy]
      exact hJ1

theorem firstProdStep_inv (U : List String) (hU : "ε" ∈ U) (left : String) :
    ∀ (syms : List String) (m : FirstMap),
    (∀ s, (m s).Nodup) → (∀ s x, x ∈ m s → x ∈ U) →
    (∀ s, ((firstProdStep m left syms).1 s).Nodup) ∧
    (∀ s x, x ∈ (firstProdStep m left syms).1 s → x ∈ U) := by
  intro syms
  induction syms with
  | nil =>
    intro m hnd hbd
    unfold firstProdStep
    split_ifs with h
    · exact ⟨hnd, hbd⟩
    · dsimp only
      constructor
      · intro s
        by_cases hs : s = left
        · subst hs
          rw [fmUpd_self]
          refine List.Nodup.append (hnd s) (List.nodup_singleton _) ?_
          intro x hx hx2
          simp at hx2
          subst hx2
          exact h hx
        · rw [fmUpd_other _ _ _ _ hs]; exact hnd s
      · intro s x hx
        by_cases hs : s = left
        · subst hs
          rw [fmUpd_self] at hx
          rcases List.mem_append.1 hx with hx | hx
          · exact hbd s x hx
          · simp at hx; subst hx; exact hU
        · rw [fmUpd_other _ _ _ _ hs] at hx; exact hbd s x hx
  | cons y rest ih =>
    intro m hnd hbd
    rw [firstProdStep_cons]
    have hnd1 : ∀ s, ((fmUpd m left (setUpdateNonEps (m left) (m y))) s).Nodup := by
      intro s
      by_cases hs : s = left
      · subst hs; rw [fmUpd_self]; exact setUpdateNonEps_nodup (hnd s)
      · rw [fmUpd_other _ _ _ _ hs]; exact hnd s
    have hbd1 : ∀ s x, x ∈ (fmUpd m left (setUpdateNonEps (m left) (m y))) s → x ∈ U := by
      intro s x hx
      by_cases hs : s = left
      · subst hs
        rw [fmUpd_self] at hx
        rcases mem_of_mem_setUpdateNonEps hx with hx | ⟨hx, -⟩
        · exact hbd s x hx
        · exact hbd y x hx
      · rw [fmUpd_other _ _ _ _ hs] at hx; exact hbd s x hx
    by_cases hy : "ε" ∈ m y
    · rw [if_pos hy]
      dsimp only
      exact ih _ hnd1 hbd1
    · rw [if_neg hy]
      exact ⟨hnd1, hbd1⟩


theorem measureOf_le (m m' : FirstMap) (h : ∀ s, (m s).length ≤ (m' s).length) :
    ∀ symbols : List String, measureOf symbols m ≤ measureOf symbols m' := by
  intro symbols
  induction symbols with
  | nil => exact Nat.le_refl _
  | cons a l ih =>
    unfold measureOf at ih ⊢
    simp only [List.map_cons, List.sum_cons]
    exact Nat.add_le_add (h a) ih

theorem measureOf_lt (m m' : FirstMap) (h : ∀ s, (m s).length ≤ (m' s).length)
    (k : String) (hlt : (m k).length < (m' k).length) :
    ∀ symbols : List String, k ∈ symbols →
      measureOf symbols m < measureOf symbols m' := by
  intro symbols
  induction symbols with
  | nil => intro hk; cases hk
  | cons a l ih =>
    intro hk
    unfold measureOf
    simp only [List.map_cons, List.sum_cons]
    rcases List.mem_cons.1 hk with rfl | hk
    · exact Nat.add_lt_add_of_lt_of_le hlt (measureOf_le m m' h l)
    · exact Nat.add_lt_add_of_le_of_lt (h a) (ih hk)

theorem nodup_subset_length {l u : List String} (hn : l.Nodup)
    (hsub : ∀ x ∈ l, x ∈ u) : l.length ≤ u.length := by
  calc l.length = l.toFinset.card := (List.toFinset_card_of_nodup hn).symm
    _ ≤ u.toFinset.card := Finset.card_le_card (by
        intro x hx
        rw [List.mem_toFinset] at hx ⊢
        exact hsub x hx)
    _ ≤ u.length := List.toFinset_card_le u

theorem measureOf_bound (U : List String) (m : FirstMap)
    (hnd : ∀ s, (m s).Nodup) (hbd : ∀ s x, x ∈ m s → x ∈ U) :
    ∀ symbols : List String, measureOf symbols m ≤ symbols.length * U.length := by
  intro symbols
  induction symbols with
  | nil => simp [measureOf]
  | cons a l ih =>
    unfold measureOf at ih ⊢
    simp only [List.map_cons, List.sum_cons, List.length_cons, Nat.succ_mul]
    have ha : (m a).length ≤ U.length := nodup_subset_length (hnd a) (hbd a)
    omega

theorem firstPass_cons (m : FirstMap) (p : Production) (rest : List Production) :
    firstPass m (p :: rest) =
      ((firstPass (firstProdStep m p.left p.right).1 rest).1,
        (firstProdStep m p.left p.right).2 ||
          (firstPass (firstProdStep m p.left p.right).1 rest).2) := by
  conv_lhs => unfold firstPass

theorem firstPass_main : ∀ (ps : List Production) (m : FirstMap),
    (∀ s, ∃ e, (firstPass m ps).1 s = m s ++ e) ∧
    ((firstPass m ps).2 = false → (firstPass m ps).1 = m) ∧
    ((firstPass m ps).2 = false →
      ∀ p ∈ ps, prodClosedS (memFirst m) p.left p.right) := by
  intro ps
  induction ps with
  | nil =>
    intro m
    exact ⟨fun s => ⟨[], by simp [firstPass]⟩, fun _ => rfl, fun _ p hp => absurd hp (by simp)⟩
  | cons p rest ih =>
    intro m
    rw [firstPass_cons]
    dsimp only
    refine ⟨?_, ?_, ?_⟩
    · intro s
      obtain ⟨e1, he1⟩ := (firstProdStep_main p.left p.right m).1 s
      obtain ⟨e2, he2⟩ := (ih (firstProdStep m p.left p.right).1).1 s
      exact ⟨e1 ++ e2, by rw [he2, he1, List.append_assoc]⟩
    · intro hc
      simp only [Bool.or_eq_false_iff] at hc
      have h1 : (firstProdStep m p.left p.right).1 = m :=
        (firstProdStep_main p.left p.right m).2.2.1 hc.1
      rw [h1] at hc ⊢
      exact (ih m).2.1 hc.2
    · intro hc q hq
      simp only [Bool.or_eq_false_iff] at hc
      have h1 : (firstProdStep m p.left p.right).1 = m :=
        (firstProdStep_main p.left p.right m).2.2.1 hc.1
      rcases List.mem_cons.1 hq with rfl | hq
      · exact (firstProdStep_main q.left q.right m).2.2.2.2 hc.1
      · rw [h1] at hc
        exact (ih m).2.2 hc.2 q hq

theorem firstPass_measure (symbols : List String) :
    ∀ (ps : List Production) (m : FirstMap),
    (∀ p ∈ ps, p.left ∈ symbols) → (firstPass m ps).2 = true →
    measureOf symbols m < measureOf symbols (firstPass m ps).1 := by
  intro ps
  induction ps with
  | nil => intro m _ hc; simp [firstPass] at hc
  | cons p rest ih =>
    intro m hl hc
    rw [firstPass_cons] at hc ⊢
    dsimp only at hc ⊢
    have hext1 := (firstProdStep_main p.left p.right m).1
    have hlen1 : ∀ s, (m s).length ≤ ((firstProdStep m p.left p.right).1 s).length := by
      intro s
      obtain ⟨e, he⟩ := hext1 s
      rw [he]
      simp
    have hext2 := (firstPass_main rest (firstProdStep m p.left p.right).1).1
    have hlen2 : ∀ s, ((firstProdStep m p.left p.right).1 s).length ≤
        ((firstPass (firstProdStep m p.left p.right).1 rest).1 s).length := by
      intro s
      obtain ⟨e, he⟩ := hext2 s
      rw [he]
      simp
    rcases Bool.or_eq_true_iff.1 hc with hc1 | hc2
    · have hstrict : (m p.left).length < ((firstProdStep m p.left p.right).1 p.left).length :=
        (firstProdStep_main p.left p.right m).2.2.2.1 hc1
      calc measureOf symbols m
          < measureOf symbols (firstProdStep m p.left p.right).1 :=
            measureOf_lt _ _ hlen1 p.left hstrict symbols (hl p (by simp))
        _ ≤ _ := measureOf_le _ _ hlen2 symbols
    · by_cases hc1 : (firstProdStep m p.left p.right).2 = true
      · have hstrict : (m p.left).length < ((firstProdStep m p.left p.right).1 p.left).length :=
          (firstProdStep_main p.left p.right m).2.2.2.1 hc1
        calc measureOf symbols m
            < measureOf symbols (firstProdStep m p.left p.right).1 :=
              measureOf_lt _ _ hlen1 p.left hstrict symbols (hl p (by simp))
          _ ≤ _ := measureOf_le _ _ hlen2 symbols
      · have h1 : (firstProdStep m p.left p.right).1 = m :=
          (firstProdStep_main p.left p.right m).2.2.1 (by
            cases hb : (firstProdStep m p.left p.right).2
            · rfl
            · exact absurd hb hc1)
        rw [h1] at hc2 ⊢
        exact ih m (fun q hq => hl q (List.mem_cons_of_mem p hq)) hc2

theorem firstPass_inv (U : List String) (hU : "ε" ∈ U) :
    ∀ (ps : List Production) (m : FirstMap),
    (∀ s, (m s).Nodup) → (∀ s x, x ∈ m s → x ∈ U) →
    (∀ s, ((firstPass m ps).1 s).Nodup) ∧
    (∀ s x, x ∈ (firstPass m ps).1 s → x ∈ U) := by
  intro ps
  induction ps with
  | nil => intro m hnd hbd; exact ⟨hnd, hbd⟩
  | cons p rest ih =>
    intro m hnd hbd
    rw [firstPass_cons]
    dsimp only
    obtain ⟨hnd1, hbd1⟩ := firstProdStep_inv U hU p.left p.right m hnd hbd
    exact ih _ hnd1 hbd1

theorem firstPass_sound (G : String → Set String) :
    ∀ (ps : List Production) (m : FirstMap),
    (∀ s x, x ∈ m s → x ∈ G s) →
    (∀ p ∈ ps, prodClosedS G p.left p.right) →
    ∀ s x, x ∈ (firstPass m ps).1 s → x ∈ G s := by
  intro ps
  induction ps with
  | nil => intro m hm _; exact hm
  | cons p rest ih =>
    intro m hm hcl
    rw [firstPass_cons]
    dsimp only
    exact ih _ (firstProdStep_sound G p.left p.right m hm (hcl p (by simp)))
      (fun q hq => hcl q (List.mem_cons_of_mem p hq))

theorem firstPass_eps (prods : List Production) :
    ∀ (ps : List Production) (m : FirstMap), (∀ p ∈ ps, p ∈ prods) →
    epsJust prods m → epsJust prods (firstPass m ps).1 := by
  intro ps
  induction ps with
  | nil => intro m _ hJ; exact hJ
  | cons p rest ih =>
    intro m hsub hJ
    rw [firstPass_cons]
    dsimp only
    refine ih _ (fun q hq => hsub q (List.mem_cons_of_mem p hq)) ?_
    exact firstProdStep_eps prods p (hsub p (by simp)) p.left rfl p.right m hJ
      (fun s hs => Or.inr hs)

theorem firstPass_locality : ∀ (ps : List Production) (m : FirstMap) (s : String),
    (∀ p ∈ ps, s ≠ p.left) → (firstPass m ps).1 s = m s := by
  intro ps
  induction ps with
  | nil => intro m s _; rfl
  | cons p rest ih =>
    intro m s hs
    rw [firstPass_cons]
    dsimp only
    rw [ih _ s (fun q hq => hs q (List.mem_cons_of_mem p hq))]
    exact (firstProdStep_main p.left p.right m).2.1 s (hs p (by simp))

theorem firstIter_succ (prods : List Production) (fuel : Nat) (m : FirstMap) :
    firstIter prods (fuel + 1) m =
      if (firstPass m prods).2 = true then firstIter prods fuel (firstPass m prods).1
      else (firstPass m prods).1 := by
  conv_lhs => unfold firstIter
  rcases h : firstPass m prods with ⟨m1, c⟩
  cases c <;> simp [h]

theorem firstIter_ext (prods : List Production) : ∀ (fuel : Nat) (m : FirstMap) (s : String),
    ∃ e, (firstIter prods fuel m) s = m s ++ e := by
  intro fuel
  induction fuel with
  | zero => intro m s; exact ⟨[], by simp [firstIter]⟩
  | succ fuel ih =>
    intro m s
    rw [firstIter_succ]
    split_ifs with h
    · obtain ⟨e1, he1⟩ := (firstPass_main prods m).1 s
      obtain ⟨e2, he2⟩ := ih (firstPass m prods).1 s
      exact ⟨e1 ++ e2, by rw [he2, he1, List.append_assoc]⟩
    · exact (firstPass_main prods m).1 s

theorem firstIter_locality (prods : List Production) (s : String)
    (hs : ∀ p ∈ prods, s ≠ p.left) :
    ∀ (fuel : Nat) (m : FirstMap), (firstIter prods fuel m) s = m s := by
  intro fuel
  induction fuel with
  | zero => intro m; rfl
  | succ fuel ih =>
    intro m
    rw [firstIter_succ]
    split_ifs with h
    · rw [ih, firstPass_locality prods m s hs]
    · exact firstPass_locality prods m s hs

theorem firstIter_sound (prods : List Production) (G : String → Set String)
    (hcl : ∀ p ∈ prods, prodClosedS G p.left p.right) :
    ∀ (fuel : Nat) (m : FirstMap), (∀ s x, x ∈ m s → x ∈ G s) →
    ∀ s x, x ∈ (firstIter prods fuel m) s → x ∈ G s := by
  intro fuel
  induction fuel with
  | zero => intro m hm; exact hm
  | succ fuel ih =>
    intro m hm
    rw [firstIter_succ]
    split_ifs with h
    · exact ih _ (firstPass_sound G prods m hm hcl)
    · exact firstPass_sound G prods m hm hcl

theorem firstIter_eps (prods : List Production) :
    ∀ (fuel : Nat) (m : FirstMap), epsJust prods m →
    epsJust prods (firstIter prods fuel m) := by
  intro fuel
  induction fuel with
  | zero => intro m hJ; exact hJ
  | succ fuel ih =>
    intro m hJ
    rw [firstIter_succ]
    split_ifs with h
    · exact ih _ (firstPass_eps prods prods m (fun _ hq => hq) hJ)
    · exact firstPass_eps prods prods m (fun _ hq => hq) hJ

theorem firstIter_fix (prods : List Production) (symbols U : List String)
    (hU : "ε" ∈ U) (hl : ∀ p ∈ prods, p.left ∈ symbols) :
    ∀ (fuel : Nat) (m : FirstMap),
    (∀ s, (m s).Nodup) → (∀ s x, x ∈ m s → x ∈ U) →
    symbols.length * U.length < measureOf symbols m + fuel →
    (firstPass (firstIter prods fuel m) prods).2 = false := by
  intro fuel
  induction fuel with
  | zero =>
    intro m hnd hbd hfuel
    exact absurd (measureOf_bound U m hnd hbd symbols) (by omega)
  | succ fuel ih =>
    intro m hnd hbd hfuel
    rw [firstIter_succ]
    split_ifs with h
    · obtain ⟨hnd1, hbd1⟩ := firstPass_inv U hU prods m hnd hbd
      refine ih _ hnd1 hbd1 ?_
      have hlt := firstPass_measure symbols prods m hl h
      omega
    · have h1 : (firstPass m prods).1 = m := (firstPass_main prods m).2.1 (by
        cases hb : (firstPass m prods).2
        · rfl
        · exact absurd hb h)
      rw [h1]
      cases hb : (firstPass m prods).2
      · rfl
      · exact absurd hb h

theorem prodClosedS_eps (F : String → Set String) (left : String) :
    ∀ syms : List String, prodClosedS F left syms →
    (∀ s ∈ syms, "ε" ∈ F s) → "ε" ∈ F left := by
  intro syms
  induction syms with
  | nil => intro hc _; exact hc
  | cons s rest ih =>
    intro hc hall
    exact ih (hc.2 (hall s (by simp))) (fun x hx => hall x (List.mem_cons_of_mem s hx))

theorem compute_first_sets_fix (g : Grammar)
    (hleft : ∀ p ∈ g.productions, p.left ∈ g.non_terminals) :
    (firstPass (compute_first_sets g) g.productions).2 = false := by
  have hU : "ε" ∈ "ε" :: symbolsOf g := by simp
  have hl : ∀ p ∈ g.productions, p.left ∈ symbolsOf g := by
    intro p hp
    unfold symbolsOf
    rw [List.mem_dedup, List.mem_append]
    exact Or.inr (hleft p hp)
  refine firstIter_fix g.productions (symbolsOf g) ("ε" :: symbolsOf g) hU hl
    (firstFuel g) (initFirst g) ?_ ?_ ?_
  · intro s
    unfold initFirst
    split_ifs
    · exact List.nodup_singleton s
    · exact List.nodup_nil
  · intro s x hx
    unfold initFirst at hx
    split_ifs at hx with hs
    · simp at hx
      subst hx
      refine List.mem_cons_of_mem _ ?_
      unfold symbolsOf
      rw [List.mem_dedup, List.mem_append]
      exact Or.inl hs
    · cases hx
  · unfold firstFuel
    have hlen : ("ε" :: symbolsOf g).length = (symbolsOf g).length + 1 := by simp
    rw [hlen]
    omega

theorem initFirst_epsJust (g : Grammar) (heps : "ε" ∉ g.terminals) :
    epsJust g.productions (initFirst g) := by
  intro A hA
  unfold initFirst at hA
  split_ifs at hA with hs
  · simp at hA
    subst hA
    exact absurd hs heps
  · cases hA

theorem initFirst_le (g : Grammar) (G : String → Set String)
    (hG : ∀ t ∈ g.terminals, t ∈ G t) :
    ∀ s x, x ∈ initFirst g s → x ∈ G s := by
  intro s x hx
  unfold initFirst at hx
  split_ifs at hx with hs
  · simp at hx
    rw [hx]
    exact hG s hs
  · cases hx

end Work2

namespace Work1

/-! ### Claims about the scanner and the lexical-grammar loader -/

theorem tokenize_reset_fields (a : Lexer) (code : List Char) :
    tokenize { a with tokens := [] } code =
      tokenize ⟨a.keywords, a.line, 0, [], .START, [], []⟩ code := by
  cases a
  rfl

theorem splitOnChar_eq_single (sep : Char) : ∀ l : List Char, sep ∉ l →
    splitOnChar sep l = [l] := by
  intro l
  induction l with
  | nil => intro _; rfl
  | cons c r ih =>
    intro h
    have hc : c ≠ sep := fun hc => h (hc ▸ List.mem_cons_self c r)
    have hr : sep ∉ r := fun hr => h (List.mem_cons_of_mem c hr)
    unfold splitOnChar
    rw [ih hr]
    simp [hc]

/-- C1: the source's `handle_start` has its final `add_error` commented out,
so a character matching no START-state branch is dropped silently: tokenizing
the single character `@` emits no token at all — no ERROR token carries it —
and the handler leaves the state unchanged. -/
theorem c1_unmatched_char_dropped :
    (tokenize (initLexer []) ['@']).tokens = [] ∧
    handle_start (initLexer []) '@' = initLexer [] := by
  constructor
  · rfl
  · rfl

/-- C3: counterexample to the claimed line discipline — tokenizing `ab\n`
yields the identifier token with line field 2, although its first character
sits on line 1 (`lineOfIndex` = 1): the newline that merely terminates the
buffered token does change the recorded line. -/
theorem c3_counterexample :
    (tokenize (initLexer []) ['a', 'b', '\n']).tokens =
      [⟨2, .IDENTIFIER, ['a', 'b']⟩] ∧
    lineOfIndex ['a', 'b', '\n'] 0 = 1 := by
  constructor
  · rfl
  · rfl

/-- C3 (amended): every token emitted by a loop iteration of the scanner
carries the line counter *after* that iteration's newline bump: the `line`
field of the post-`step` state, which is the pre-step line plus one exactly
when the character read is a newline.  Hence a token finalized by a
terminating newline records the line after the one on which it begins. -/
theorem c3_emitted_line_is_bumped_line (st : Lexer) :
    (∃ ts, (step st).tokens = st.tokens ++ ts ∧ ∀ t ∈ ts, t.line = (step st).line) ∧
    (step st).line =
      (if charAt st.currentInput st.pos = '\n' then st.line + 1 else st.line) := by
  refine ⟨step_emits st, ?_⟩
  rw [step_eq_bump, (dispatch_emits (bump st) (charAt st.currentInput st.pos)).1]
  unfold bump
  split <;> rfl

/-- C4: counterexample — in `a01` the maximal digit run `01` starts with a
zero and has two digits, but the scanner emits no ERROR token: the digits
are absorbed into the identifier token `a01` (the leading-zero check lives
only in the NUMBER state). -/
theorem c4_counterexample :
    (tokenize (initLexer []) ['a', '0', '1']).tokens =
      [⟨1, .IDENTIFIER, ['a', '0', '1']⟩] := by
  rfl

/-- C4 (amended): the leading-zero rule applies to digit runs scanned in the
NUMBER state: when the buffer holds exactly `0` and another digit arrives,
`handle_number` consumes the maximal following digit run and emits exactly
one ERROR token whose lexeme is the entire run (`0`, the digit just read,
and all following digits), advancing the position past the run and
returning to START with an empty buffer. -/
theorem c4_leading_zero_run_error (st : Lexer) (c : Char)
    (hbuf : st.buffer = ['0']) (hdig : isDigit c = true) :
    handle_number st c =
      { st with
        buffer := [],
        currentState := .START,
        pos := st.pos + ((st.currentInput.drop st.pos).takeWhile (fun x => isDigit x)).length,
        tokens := st.tokens ++
          [⟨st.line, .ERROR,
            '0' :: c :: (st.currentInput.drop st.pos).takeWhile (fun x => isDigit x)⟩] } := by
  unfold handle_number
  dsimp only
  rw [hbuf]
  rw [if_pos (by simp [hdig])]
  rw [consumeDigits_spec (st.currentInput.length - st.pos)
    { st with buffer := ['0'] ++ [c] } (Nat.le_refl _)]
  rfl

theorem c4_witness :
    (⟨[], 1, 2, [], .NUMBER, ['0'], ['0', '1', '2']⟩ : Lexer).buffer = ['0'] ∧
    isDigit '1' = true ∧
    handle_number ⟨[], 1, 2, [], .NUMBER, ['0'], ['0', '1', '2']⟩ '1' =
      ⟨[], 1, 3, [⟨1, .ERROR, ['0', '1', '2']⟩], .START, [], ['0', '1', '2']⟩ := by
  refine ⟨rfl, rfl, ?_⟩
  rw [c4_leading_zero_run_error ⟨[], 1, 2, [], .NUMBER, ['0'], ['0', '1', '2']⟩ '1' rfl rfl]
  rfl

/-- C8: counterexample — loading a grammar file whose only line is `A B`
(non-empty, not a comment, no `→`) raises an uncaught `ValueError` from the
unpacking `lhs, rhs = line.split('→', 1)`; no `GrammarSyntax` error exists
anywhere in the source. -/
theorem c8_counterexample :
    load_grammar [['A', ' ', 'B']] =
      .raised "ValueError: not enough values to unpack (expected 2, got 1)" := by
  rfl

/-- C8 (amended): whenever the loader reaches a line that strips to a
non-empty, non-comment text without `→`, `load_grammar` raises the
`ValueError` of the failed two-way unpacking (whatever lines follow and
whatever keywords and rules were accumulated before). -/
theorem c8_no_arrow_raises (line : List Char) (rest : List (List Char))
    (kws : List (List Char)) (rules : List (List Char × List Char))
    (h1 : (pyStrip line).isEmpty = false)
    (h2 : (pyStrip line).headD ' ' ≠ '#')
    (h3 : '→' ∉ pyStrip line) :
    load_grammar_go (line :: rest) kws rules =
      .raised "ValueError: not enough values to unpack (expected 2, got 1)" := by
  conv_lhs => unfold load_grammar_go
  dsimp only
  rw [if_neg (by
    intro hcond
    rw [h1, Bool.false_or, decide_eq_true_eq] at hcond
    exact h2 hcond)]
  rw [splitOnChar_eq_single '→' (pyStrip line) h3]

theorem c8_witness :
    (pyStrip ['A', ' ', 'B']).isEmpty = false ∧
    (pyStrip ['A', ' ', 'B']).headD ' ' ≠ '#' ∧
    '→' ∉ pyStrip ['A', ' ', 'B'] ∧
    load_grammar_go [['A', ' ', 'B']] [] [] =
      .raised "ValueError: not enough values to unpack (expected 2, got 1)" :=
  ⟨by decide, by decide, by decide,
    c8_no_arrow_raises ['A', ' ', 'B'] [] [] [] (by decide) (by decide) (by decide)⟩

/-- C9: in any state the scanner loop can reach (a `run` of any fuel from
the start of a `tokenize` call), being in the COMPLEX state implies the
read position is at least 2, so the two-character back-step of
`handle_complex`'s fallback leaves the next position at least 1: the
back-step can never move the read position before the start of the
input. -/
theorem c9_complex_backstep_safe (st : Lexer) (code : List Char) (fuel : Nat)
    (h : (run fuel (tokenizeStart st code)).currentState = .COMPLEX) :
    2 ≤ (run fuel (tokenizeStart st code)).pos ∧
    1 ≤ (step (run fuel (tokenizeStart st code))).pos := by
  have hinv : lexInv (run fuel (tokenizeStart st code)) :=
    run_preserves_inv fuel _ (tokenizeStart_inv st code)
  have hpos : 2 ≤ (run fuel (tokenizeStart st code)).pos := hinv.2 h
  refine ⟨hpos, ?_⟩
  set r := run fuel (tokenizeStart st code) with hr
  rw [step_eq_bump]
  have hbp : (bump r).pos = r.pos + 1 := bump_pos r
  have hd := (dispatch_cases (bump r) (charAt r.currentInput r.pos)).2
  rcases hd with ⟨hge, -⟩ | ⟨heq, -⟩ | ⟨heq, -, -⟩ | ⟨heq, -, -⟩ <;> omega

theorem c9_witness :
    (run 2 (tokenizeStart (initLexer []) ['1', '+'])).currentState = .COMPLEX ∧
    2 ≤ (run 2 (tokenizeStart (initLexer []) ['1', '+'])).pos ∧
    1 ≤ (step (run 2 (tokenizeStart (initLexer []) ['1', '+']))).pos :=
  ⟨by decide, c9_complex_backstep_safe (initLexer []) ['1', '+'] 2 (by decide)⟩

/-- C10: `tokenize` accumulates.  A second call on the same `Lexer` returns
the first call's token list followed by the tokens of the second input
scanned from a fresh per-call state (position 0, empty buffer, START) that
keeps only the keywords and the line counter left by the first call — the
token list and line counter are not reset, positions, buffer and DFA state
are. -/
theorem c10_tokenize_accumulates (st : Lexer) (s1 s2 : List Char) :
    (tokenize (tokenize st s1) s2).tokens =
      (tokenize st s1).tokens ++
        (tokenize ⟨st.keywords, (tokenize st s1).line, 0, [], .START, [], []⟩ s2).tokens := by
  conv_lhs => rw [tokenize_frame (tokenize st s1) s2]
  dsimp only
  congr 1
  rw [tokenize_reset_fields (tokenize st s1) s2]
  rw [tokenize_keywords st s1]

end Work1

namespace Work2

/-! ### Claims about the LR(1) table builder and parser -/

theorem find_map_upd {α : Type} (k : Nat × String) (v : α) :
    ∀ m : List ((Nat × String) × α),
    (m.map (fun e => if e.1 == k then (k, v) else e)).find? (fun e => e.1 == k) =
      (m.find? (fun e => e.1 == k)).map (fun _ => (k, v)) := by
  intro m
  induction m with
  | nil => rfl
  | cons e m ih =>
    by_cases he : (e.1 == k) = true
    · rw [List.map_cons]
      rw [if_pos he]
      rw [List.find?_cons_of_pos (List.map (fun e => if e.1 == k then (k, v) else e) m)
        (by simp)]
      rw [List.find?_cons_of_pos m he]
      rfl
    · rw [List.map_cons]
      rw [if_neg he]
      rw [List.find?_cons_of_neg (List.map (fun e => if e.1 == k then (k, v) else e) m)
        (by simpa using he)]
      rw [List.find?_cons_of_neg m (by simpa using he)]
      exact ih

theorem dictGet?_append_single {α : Type} (k : Nat × String) (v : α) :
    ∀ m : List ((Nat × String) × α), m.find? (fun e => e.1 == k) = none →
    dictGet? (m ++ [(k, v)]) k = some v := by
  intro m
  induction m with
  | nil => intro _; simp [dictGet?, List.find?]
  | cons e m ih =>
    intro h
    rw [List.find?_cons] at h
    unfold dictGet?
    rw [List.cons_append, List.find?_cons]
    split at h
    · exact absurd h (by simp)
    · exact ih h

theorem dictGet?_dictSet {α : Type} (m : List ((Nat × String) × α)) (k : Nat × String)
    (v : α) : dictGet? (dictSet m k v) k = some v := by
  unfold dictSet
  by_cases h : (m.find? (fun e => e.1 == k)).isSome
  · rw [if_pos h]
    unfold dictGet?
    rw [find_map_upd]
    cases hf : m.find? (fun e => e.1 == k) with
    | none => rw [hf] at h; simp at h
    | some e => simp
  · rw [if_neg h]
    refine dictGet?_append_single k v m ?_
    cases hf : m.find? (fun e => e.1 == k) with
    | none => rfl
    | some e => rw [hf] at h; simp at h

theorem grammarRR_action_eval :
    dictGet? (buildTables grammarRR).1 (1, "$") =
      some (.reduce ⟨"C", [quoteSym "a"]⟩) := by
  decide

/-- C2: counterexample — for `grammarRR` the construction does not fail:
state 1 holds the two distinct complete items `B → 'a' ·, $` and
`C → 'a' ·, $` (a reduce-reduce conflict on the lookahead `$`), and
`_build_parsing_tables` still returns a table whose `(1, $)` entry is the
reduce by `C → 'a'` — the item processed last. -/
theorem c2_counterexample :
    (⟨⟨"B", [quoteSym "a"]⟩, 1, "$"⟩ : LR1Item) ∈
      (build_states grammarRR (compute_first_sets grammarRR)).1.getD 1 [] ∧
    (⟨⟨"C", [quoteSym "a"]⟩, 1, "$"⟩ : LR1Item) ∈
      (build_states grammarRR (compute_first_sets grammarRR)).1.getD 1 [] ∧
    dictGet? (buildTables grammarRR).1 (1, "$") =
      some (.reduce ⟨"C", [quoteSym "a"]⟩) := by
  refine ⟨by decide, by decide, grammarRR_action_eval⟩

/-- C2 (amended): a reduce-reduce conflict is not fatal: the dict assignment
used by `_build_parsing_tables` silently overwrites an existing reduce
entry with the later one (only an existing shift makes a reduce proposal
yield), so of two complete items proposing reduces on the same lookahead
the one processed last wins, as the conflicted `grammarRR` exhibits. -/
theorem c2_reduce_reduce_overwritten :
    (∀ (a : List ((Nat × String) × ActionEntry)) (k : Nat × String) (p q : Production),
      dictGet? (dictSet (dictSet a k (.reduce p)) k (.reduce q)) k = some (.reduce q)) ∧
    dictGet? (buildTables grammarRR).1 (1, "$") =
      some (.reduce ⟨"C", [quoteSym "a"]⟩) :=
  ⟨fun a k p q => dictGet?_dictSet (dictSet a k (.reduce p)) k (.reduce q),
    grammarRR_action_eval⟩

end Work2

namespace Work2

/-- C6 (amended): when the machine takes a reduce action and the GOTO table
has no entry for the uncovered state and the production's lhs, `parse` does
not return `(False, ...)` with an `Invalid action in parser` message: the
raw dict subscript `self.goto_table[...]` raises an uncaught `KeyError`,
whatever the tables, tokens, stack and position are. -/
theorem c6_missing_goto_raises (action : List ((Nat × String) × ActionEntry))
    (goto_table : List ((Nat × String) × Nat))
    (tokens : List (Nat × TokenType × String)) (input_tokens : List String)
    (fuel : Nat) (stack : List (Nat × String)) (pos : Nat)
    (top : Nat × String) (current : String) (p : Production)
    (stack1 : List (Nat × String)) (prev : Nat × String)
    (h1 : stack.getLast? = some top)
    (h2 : input_tokens.get? pos = some current)
    (h3 : dictGet? action (top.1, current) = some (.reduce p))
    (h4 : popN p.right.length stack = some stack1)
    (h5 : stack1.getLast? = some prev)
    (h6 : dictGet? goto_table (prev.1, p.left) = none) :
    parse_loop action goto_table tokens input_tokens (fuel + 1) stack pos =
      .raised "KeyError: missing goto entry" := by
  conv_lhs => unfold parse_loop
  simp only [h1, h2, h3, h4, h5, h6]

theorem c6_witness :
    ([(0, "$")] : List (Nat × String)).getLast? = some (0, "$") ∧
    (["ID", "$"] : List String).get? 0 = some "ID" ∧
    dictGet? act6 ((0, "$").1, "ID") = some (.reduce ⟨"S", []⟩) ∧
    popN (Production.mk "S" []).right.length [(0, "$")] = some [(0, "$")] ∧
    ([(0, "$")] : List (Nat × String)).getLast? = some (0, "$") ∧
    dictGet? ([] : List ((Nat × String) × Nat)) ((0, "$").1, (Production.mk "S" []).left) = none ∧
    parse_loop act6 [] toks6 ["ID", "$"] 6 [(0, "$")] 0 =
      .raised "KeyError: missing goto entry" :=
  ⟨by decide, by decide, by decide, by decide, by decide, by decide,
    c6_missing_goto_raises act6 [] toks6 ["ID", "$"] 5 [(0, "$")] 0 (0, "$") "ID"
      ⟨"S", []⟩ [(0, "$")] (0, "$")
      (by decide) (by decide) (by decide) (by decide) (by decide) (by decide)⟩

/-- C6: counterexample — a full `parse` call on tables with the reduce
entry but no GOTO entry ends in the uncaught `KeyError`, not in the claimed
`(False, [Line 1: Invalid action in parser])` return value. -/
theorem c6_counterexample :
    parse act6 [] toks6 = .raised "KeyError: missing goto entry" := by
  decide

end Work2

namespace Work2

set_option maxRecDepth 10000 in
theorem grammar7_parse_eval :
    parse (buildTables grammar7).1 (buildTables grammar7).2 toks7 =
      .returned false [syntaxErrorMsg 1 (quoteSym "+")] := by
  decide

/-- C7: counterexample — on the expression grammar and `ID + + ID` the
parse fails as claimed, but the single returned error string is not the
claimed one: the offending symbol is not wrapped in exactly one pair of
single quotes. -/
theorem c7_counterexample :
    ∃ es, parse (buildTables grammar7).1 (buildTables grammar7).2 toks7 =
        .returned false es ∧
      es ≠ ["Line 1: Syntax error, unexpected token " ++ sq ++ "+" ++ sq] :=
  ⟨[syntaxErrorMsg 1 (quoteSym "+")], grammar7_parse_eval, by decide⟩

/-- C7 (amended): parsing `ID + + ID` with the expression grammar returns
failure with exactly one error string, in which the offending `+` is
wrapped in two pairs of single quotes (`_convert_tokens` adds one pair, the
f-string of the error message another). -/
theorem c7_error_doubly_quoted :
    parse (buildTables grammar7).1 (buildTables grammar7).2 toks7 =
      .returned false
        ["Line 1: Syntax error, unexpected token " ++ sq ++ sq ++ "+" ++ sq ++ sq] := by
  rw [grammar7_parse_eval]
  decide

end Work2

namespace Work2

/-- C5: for a well-formed grammar (production lhs are non-terminals,
terminals and non-terminals are disjoint, `ε` is not a terminal), the
computed FIRST sets are the least fixed point of the claim's closure
conditions: every terminal's FIRST set is exactly `{t}`; the assignment is
closed under the per-production chain conditions (including `ε`-membership
for an empty rhs); `ε ∈ FIRST(A)` holds exactly when some production of `A`
has every rhs symbol with `ε` in its FIRST set (an empty rhs trivially so);
and every closed assignment contains the computed one. -/
theorem c5_first_sets_least_fixed_point (g : Grammar)
    (hleft : ∀ p ∈ g.productions, p.left ∈ g.non_terminals)
    (hsep : ∀ t ∈ g.terminals, t ∉ g.non_terminals)
    (heps : "ε" ∉ g.terminals) :
    (∀ t ∈ g.terminals, compute_first_sets g t = [t]) ∧
    FirstClosedS g (memFirst (compute_first_sets g)) ∧
    (∀ A : String, "ε" ∈ memFirst (compute_first_sets g) A ↔
      ∃ p ∈ g.productions, p.left = A ∧
        ∀ s ∈ p.right, "ε" ∈ memFirst (compute_first_sets g) s) ∧
    (∀ F : String → Set String, FirstClosedS g F →
      ∀ s : String, memFirst (compute_first_sets g) s ⊆ F s) := by
  have hterm : ∀ t ∈ g.terminals, compute_first_sets g t = [t] := by
    intro t ht
    have hne : ∀ p ∈ g.productions, t ≠ p.left := fun p hp heq =>
      hsep t ht (heq ▸ hleft p hp)
    unfold compute_first_sets
    rw [firstIter_locality g.productions t hne (firstFuel g) (initFirst g)]
    unfold initFirst
    rw [if_pos ht]
  have hclosed : ∀ p ∈ g.productions,
      prodClosedS (memFirst (compute_first_sets g)) p.left p.right :=
    (firstPass_main g.productions (compute_first_sets g)).2.2
      (compute_first_sets_fix g hleft)
  have hFC : FirstClosedS g (memFirst (compute_first_sets g)) := by
    constructor
    · intro t ht
      show t ∈ compute_first_sets g t
      rw [hterm t ht]
      exact List.mem_singleton_self t
    · exact hclosed
  refine ⟨hterm, hFC, ?_, ?_⟩
  · intro A
    constructor
    · intro hA
      exact firstIter_eps g.productions (firstFuel g) (initFirst g)
        (initFirst_epsJust g heps) A hA
    · rintro ⟨p, hp, rfl, hall⟩
      exact prodClosedS_eps (memFirst (compute_first_sets g)) p.left p.right
        (hclosed p hp) hall
  · intro F hF s x hx
    exact firstIter_sound g.productions F hF.2 (firstFuel g) (initFirst g)
      (initFirst_le g F hF.1) s x hx

theorem c5_witness :
    (∀ p ∈ gW.productions, p.left ∈ gW.non_terminals) ∧
    (∀ t ∈ gW.terminals, t ∉ gW.non_terminals) ∧
    "ε" ∉ gW.terminals ∧
    FirstClosedS gW (memFirst (compute_first_sets gW)) :=
  ⟨by decide, by decide, by decide,
    (c5_first_sets_least_fixed_point gW (by decide) (by decide) (by decide)).2.1⟩

end Work2
